import Mathlib

/-!
Reaktoro: equilibrium utilities, the Gems backend and the Lagrange interpolator.

A shallow embedding of `Reaktoro/Equilibrium/EquilibriumUtils.cpp`,
`Reaktoro/Interfaces/Gems.cpp`, `Reaktoro/Math/LagrangeInterpolator.cpp` and
`Reaktoro/Common/Functions.hpp`.

Conventions of the embedding:
* a C++ `double` is an exact rational (`ℚ`); a `Vector` is a list of them;
* an `unsigned` is a natural number, and sums of `unsigned` values are taken
  modulo `2^32`;
* a C++ function that may throw returns `Except Exception _`; a function whose
  C++ behaviour can be undefined returns an `Option`;
* an object passed by non-const reference is passed in and handed back;
* classes whose implementation is not part of the sources (the solvers, the
  chemical system, the partition, the problem) are either parameters or are
  modelled from the specification, and say so in their doc comment.
-/

namespace Reaktoro

/-! ## Data model -/

/-- A dense vector of real numbers (`Reaktoro::Vector`). -/
abbrev Vector := List ℚ

/-- The errors a call can raise. `runtimeError` is what a failed `Assert`
throws; the other two are the structural errors of the specification. -/
inductive Exception where
  | invalidPartition : Exception
  | invalidProblem : Exception
  | runtimeError (error reason : String) : Exception
deriving DecidableEq, Repr

/-- Modelled from the spec: the `Assert(condition, error, reason)` macro of
`Reaktoro/Common/Exception.hpp`, which is not among the sources. It does
nothing when the condition holds and throws an exception carrying the two
messages otherwise (the call sites read "Assert the calculation succeeded"). -/
def Assert (condition : Bool) (errorstr reasonstr : String) : Except Exception Unit :=
  if condition then Except.ok () else Except.error (Exception.runtimeError errorstr reasonstr)

/-- Modelled from the spec: the part of `ChemicalSystem` the equilibrium
utilities read, namely the formula matrix `A` (element × species, one inner
list per element) with its dimensions. -/
structure ChemicalSystem where
  numElements : Nat
  numSpecies : Nat
  formulaMatrix : List (List ℚ)
deriving DecidableEq, Repr

/-- Coefficient of element `j` in species `i`, entry `A(j, i)`. -/
def ChemicalSystem.coefficient (system : ChemicalSystem) (j i : Nat) : ℚ :=
  (system.formulaMatrix.getD j []).getD i 0

/-- Modelled from the spec: the `Partition` class, a classification of the
species indices into equilibrium, kinetic and inert species. The equilibrium
species are those assigned by `setEquilibriumSpecies` together with the
unassigned ones ("unassigned species default to equilibrium");
`assignedEquilibriumSpecies` remembers the former. -/
structure Partition where
  system : ChemicalSystem
  indicesEquilibriumSpecies : List Nat
  indicesKineticSpecies : List Nat
  indicesInertSpecies : List Nat
  assignedEquilibriumSpecies : List Nat := []
deriving DecidableEq, Repr

/-- Modelled from the spec: `Partition(system)`, in which every species is an
equilibrium species ("unassigned species default to equilibrium"). -/
def Partition.ofSystem (system : ChemicalSystem) : Partition :=
  { system := system
    indicesEquilibriumSpecies := List.range system.numSpecies
    indicesKineticSpecies := []
    indicesInertSpecies := [] }

/-- Modelled from the spec: `Partition::indicesEquilibriumElements()`, the
indices of the elements with a non-zero coefficient in at least one
equilibrium species, in increasing order. -/
def Partition.indicesEquilibriumElements (partition : Partition) : List Nat :=
  (List.range partition.system.numElements).filter fun j =>
    partition.indicesEquilibriumSpecies.any fun i =>
      decide (partition.system.coefficient j i ≠ 0)

/-- Modelled from the spec: the species that are neither kinetic nor inert,
in increasing order; these are the equilibrium species ("unassigned species
default to equilibrium"). -/
def Partition.remainingSpecies (numSpecies : Nat) (kinetic inert : List Nat) : List Nat :=
  (List.range numSpecies).filter fun i => decide (i ∉ kinetic ∧ i ∉ inert)

/-- Modelled from the spec: the check of the three setters, "indices in
`[0,N)`" that do not "overlap across subsets": every index is below the number
of species and is assigned to neither of the two other subsets. -/
def Partition.admissible (numSpecies : Nat) (indices other1 other2 : List Nat) : Bool :=
  indices.all fun i => decide (i < numSpecies ∧ i ∉ other1 ∧ i ∉ other2)

/-- Modelled from the spec: `Partition::setEquilibriumSpecies(indices)`; it
"fails with `InvalidPartition` if indices overlap across subsets or are out of
range". -/
def Partition.setEquilibriumSpecies (partition : Partition) (indices : List Nat) :
    Except Exception Partition :=
  if Partition.admissible partition.system.numSpecies indices partition.indicesKineticSpecies
      partition.indicesInertSpecies then
    Except.ok
      { partition with
        assignedEquilibriumSpecies := indices
        indicesEquilibriumSpecies :=
          Partition.remainingSpecies partition.system.numSpecies
            partition.indicesKineticSpecies partition.indicesInertSpecies }
  else Except.error Exception.invalidPartition

/-- Modelled from the spec: `Partition::setKineticSpecies(indices)`; it "fails
with `InvalidPartition` if indices overlap across subsets or are out of
range". -/
def Partition.setKineticSpecies (partition : Partition) (indices : List Nat) :
    Except Exception Partition :=
  if Partition.admissible partition.system.numSpecies indices
      partition.assignedEquilibriumSpecies partition.indicesInertSpecies then
    Except.ok
      { partition with
        indicesKineticSpecies := indices
        indicesEquilibriumSpecies :=
          Partition.remainingSpecies partition.system.numSpecies indices
            partition.indicesInertSpecies }
  else Except.error Exception.invalidPartition

/-- Modelled from the spec: `Partition::setInertSpecies(indices)`; it "fails
with `InvalidPartition` if indices overlap across subsets or are out of
range". -/
def Partition.setInertSpecies (partition : Partition) (indices : List Nat) :
    Except Exception Partition :=
  if Partition.admissible partition.system.numSpecies indices
      partition.assignedEquilibriumSpecies partition.indicesKineticSpecies then
    Except.ok
      { partition with
        indicesInertSpecies := indices
        indicesEquilibriumSpecies :=
          Partition.remainingSpecies partition.system.numSpecies
            partition.indicesKineticSpecies indices }
  else Except.error Exception.invalidPartition

/-- One call of a setter of the partition. -/
inductive SetterCall where
  | equilibrium (indices : List Nat) : SetterCall
  | kinetic (indices : List Nat) : SetterCall
  | inert (indices : List Nat) : SetterCall
deriving DecidableEq, Repr

/-- The partition after one call of a setter, or the exception it throws. -/
def Partition.applyCall (partition : Partition) : SetterCall → Except Exception Partition
  | SetterCall.equilibrium indices => partition.setEquilibriumSpecies indices
  | SetterCall.kinetic indices => partition.setKineticSpecies indices
  | SetterCall.inert indices => partition.setInertSpecies indices

/-- The partition after a sequence of calls that all succeed, or the
exception of the first call that fails. -/
def Partition.applyCalls : Partition → List SetterCall → Except Exception Partition
  | partition, [] => Except.ok partition
  | partition, call :: calls =>
    match partition.applyCall call with
    | Except.error e => Except.error e
    | Except.ok next => Partition.applyCalls next calls

/-- The properties the setters maintain: the kinetic and inert species are
species of the system, no species is both, and the equilibrium species are the
remaining ones. -/
def Partition.Consistent (partition : Partition) : Prop :=
  (∀ i, i ∈ partition.indicesKineticSpecies → i < partition.system.numSpecies) ∧
  (∀ i, i ∈ partition.indicesInertSpecies → i < partition.system.numSpecies) ∧
  (∀ i, i ∈ partition.indicesKineticSpecies → i ∉ partition.indicesInertSpecies) ∧
  partition.indicesEquilibriumSpecies =
    Partition.remainingSpecies partition.system.numSpecies partition.indicesKineticSpecies
      partition.indicesInertSpecies

/-- Modelled from the spec: `EquilibriumOptions`, whose header is not among
the sources ("tolerance, maxIterations, warmStart"); the utilities only
forward the options to the solver. -/
structure EquilibriumOptions where
  tolerance : ℚ := 1 / 1000000
  maxIterations : Nat := 100
  warmstart : Bool := true
deriving DecidableEq, Repr

/-- Modelled from the spec: the `optimum` member of an `EquilibriumResult`
("converged flag, iteration count"); `succeeded` is the flag that
`equilibrateAux` reads. -/
structure OptimumResult where
  succeeded : Bool := false
  iterations : Nat := 0
deriving DecidableEq, Repr

/-- Modelled from the spec: the result of an equilibrium calculation
(`EquilibriumResult`), whose header is not among the sources. -/
structure EquilibriumResult where
  optimum : OptimumResult := {}
deriving DecidableEq, Repr

/-- Modelled from the spec: the state of a system (`EquilibriumState`, not
among the sources): "owns the current full `n`, T, P". -/
structure EquilibriumState where
  system : ChemicalSystem
  temperature : ℚ
  pressure : ℚ
  speciesAmounts : Vector
deriving DecidableEq, Repr

/-- Amount of element `j` held by the species with the given indices:
`Σ_{i ∈ indices} A(j, i) · n_i`. -/
def EquilibriumState.elementAmountInSpecies (state : EquilibriumState) (indices : List Nat)
    (j : Nat) : ℚ :=
  (indices.map fun i => state.system.coefficient j i * state.speciesAmounts.getD i 0).sum

/-- The amounts of all elements held by the species with the given indices. -/
def EquilibriumState.elementAmountsInSpecies (state : EquilibriumState) (indices : List Nat) :
    Vector :=
  (List.range state.system.numElements).map (state.elementAmountInSpecies indices)

/-- Modelled from the spec: `EquilibriumState::elementAmounts()`, the total
amounts of the elements, `b = A·n` over all species. -/
def EquilibriumState.elementAmounts (state : EquilibriumState) : Vector :=
  state.elementAmountsInSpecies (List.range state.system.numSpecies)

/-- Modelled from the spec: `EquilibriumState(system)`, a fresh state of the
system: standard temperature and pressure, all amounts zero. -/
def EquilibriumState.ofSystem (system : ChemicalSystem) : EquilibriumState :=
  { system := system
    temperature := 29815 / 100
    pressure := 100000
    speciesAmounts := List.replicate system.numSpecies 0 }

/-- Modelled from the spec: `rows(b, indices)` of `Reaktoro/Common/Matrix.hpp`,
which is not among the sources: the entries of `b` at the given indices, in
the order of the indices. An index outside `b`, which the C++ code must not
pass, reads as zero. -/
def rows (b : Vector) (indices : List Nat) : Vector :=
  indices.map fun i => b.getD i 0

/-- Modelled from the spec: an equilibrium problem (`EquilibriumProblem`, not
among the sources): system, partition, temperature, pressure and the amounts
of the elements, as read back by `equilibrateAux`. -/
structure EquilibriumProblem where
  system : ChemicalSystem
  partition : Partition
  temperature : ℚ
  pressure : ℚ
  elementAmounts : Vector
deriving DecidableEq, Repr

/-- Modelled from the spec: `EquilibriumProblem(system)`, the problem of a
system before anything is set. -/
def EquilibriumProblem.ofSystem (system : ChemicalSystem) : EquilibriumProblem :=
  { system := system
    partition := Partition.ofSystem system
    temperature := 29815 / 100
    pressure := 100000
    elementAmounts := List.replicate system.numElements 0 }

/-- Modelled from the spec: `EquilibriumProblem::setPartition`; it stores the
partition. -/
def EquilibriumProblem.setPartition (problem : EquilibriumProblem) (partition : Partition) :
    Except Exception EquilibriumProblem :=
  Except.ok { problem with partition := partition }

/-- Modelled from the spec: `EquilibriumProblem::setTemperature`; "problem
validated at construction: `T>0` ... else fails with `InvalidProblem`". -/
def EquilibriumProblem.setTemperature (problem : EquilibriumProblem) (val : ℚ) :
    Except Exception EquilibriumProblem :=
  if 0 < val then Except.ok { problem with temperature := val }
  else Except.error Exception.invalidProblem

/-- Modelled from the spec: `EquilibriumProblem::setPressure`; "problem
validated at construction: `P>0` ... else fails with `InvalidProblem`". -/
def EquilibriumProblem.setPressure (problem : EquilibriumProblem) (val : ℚ) :
    Except Exception EquilibriumProblem :=
  if 0 < val then Except.ok { problem with pressure := val }
  else Except.error Exception.invalidProblem

/-- Modelled from the spec: the budget `be` of a problem whose element
amounts are `b`: the entries of `b` at the equilibrium elements, in the order
of `indicesEquilibriumElements()`. Where `b` has no entry at an equilibrium
element, `be` has none either, and is then shorter than the list of
equilibrium elements. -/
def EquilibriumProblem.budget (problem : EquilibriumProblem) (b : Vector) : Vector :=
  problem.partition.indicesEquilibriumElements.filterMap fun i => b[i]?

/-- Modelled from the spec: `EquilibriumProblem::setElementAmounts`; "problem
validated at construction: `be` entries ≥ 0, `len(be) == |active equilibrium
elements|`; else fails with `InvalidProblem`". The entries of `be`, not those
of the whole vector `b`, must be non-negative, and `be` must have one entry
per equilibrium element. -/
def EquilibriumProblem.setElementAmounts (problem : EquilibriumProblem) (b : Vector) :
    Except Exception EquilibriumProblem :=
  if (problem.budget b).all (fun x => decide (0 ≤ x)) ∧
      (problem.budget b).length = problem.partition.indicesEquilibriumElements.length then
    Except.ok { problem with elementAmounts := b }
  else Except.error Exception.invalidProblem

/-- Modelled from the spec: an inverse equilibrium problem
(`EquilibriumInverseProblem`, not among the sources). The utilities read its
system and partition; its constraints are handed to the inverse solver
unread. -/
structure EquilibriumInverseProblem where
  system : ChemicalSystem
  partition : Partition
  constraints : List (String × ℚ)
deriving DecidableEq, Repr

/-- The solvers the utilities drive. `EquilibriumSolver` and
`EquilibriumInverseSolver` are not among the sources, so their `solve`
methods are parameters: given the system, partition and options the solver
was set up with, the state and the conditions, each hands back the state as it
left it and its result. -/
structure Solvers where
  solve : ChemicalSystem → Partition → EquilibriumOptions → EquilibriumState →
    ℚ → ℚ → Vector → EquilibriumState × EquilibriumResult
  solveInverse : ChemicalSystem → Partition → EquilibriumOptions → EquilibriumState →
    EquilibriumInverseProblem → EquilibriumState × EquilibriumResult

/-- One call of a solver's `solve`, with the arguments it was given. -/
inductive SolverCall where
  | direct (T P : ℚ) (be : Vector) : SolverCall
  | inverse (problem : EquilibriumInverseProblem) : SolverCall
deriving DecidableEq, Repr

/-- What a call of `equilibrate` leaves behind: the caller's state object,
the calls made to a solver (in order), and the value returned or the
exception thrown. -/
structure Outcome (α : Type) where
  state : EquilibriumState
  calls : List SolverCall
  result : Except Exception α

/-! ## EquilibriumUtils.cpp -/

/-- The message of the assertion in `equilibrateAux`. -/
def equilibrateErrorMessage : String :=
  "Could not calculate the equilibrium state of the system."

/-- The reason of the assertion in `equilibrateAux`. -/
def equilibrateErrorReason : String :=
  "Convergence could not be established with given equilibrium conditions, " ++
  "initial guess, and/or numerical parameters."

/-- `equilibrateAux(state, problem, options)` for a direct problem
(EquilibriumUtils.cpp, lines 35-61). -/
def equilibrateAux (solvers : Solvers) (state : EquilibriumState)
    (problem : EquilibriumProblem) (options : EquilibriumOptions) :
    Outcome EquilibriumResult :=
  let system := problem.system
  let partition := problem.partition
  let iee := partition.indicesEquilibriumElements
  let T := problem.temperature
  let P := problem.pressure
  let b := problem.elementAmounts
  let be := rows b iee
  let solved := solvers.solve system partition options state T P be
  let res := solved.2
  { state := solved.1
    calls := [SolverCall.direct T P be]
    result := do
      Assert res.optimum.succeeded equilibrateErrorMessage equilibrateErrorReason
      pure res }

/-- `equilibrateAux(state, problem, options)` for an inverse problem
(EquilibriumUtils.cpp, lines 63-84). -/
def equilibrateAuxInverse (solvers : Solvers) (state : EquilibriumState)
    (problem : EquilibriumInverseProblem) (options : EquilibriumOptions) :
    Outcome EquilibriumResult :=
  let system := problem.system
  let partition := problem.partition
  let solved := solvers.solveInverse system partition options state problem
  let res := solved.2
  { state := solved.1
    calls := [SolverCall.inverse problem]
    result := do
      Assert res.optimum.succeeded equilibrateErrorMessage equilibrateErrorReason
      pure res }

/-- `equilibrate(state, problem, options)` (lines 124-127). -/
def equilibrate_state_problem_options (solvers : Solvers) (state : EquilibriumState)
    (problem : EquilibriumProblem) (options : EquilibriumOptions) :
    Outcome EquilibriumResult :=
  equilibrateAux solvers state problem options

/-- `equilibrate(state, problem)` (lines 119-122). -/
def equilibrate_state_problem (solvers : Solvers) (state : EquilibriumState)
    (problem : EquilibriumProblem) : Outcome EquilibriumResult :=
  equilibrate_state_problem_options solvers state problem {}

/-- The problem `equilibrate(state, partition, options)` builds from the
state (lines 108-114); a setter that throws ends the construction. -/
def problemOfState (state : EquilibriumState) (partition : Partition) :
    Except Exception EquilibriumProblem := do
  let system := state.system
  let problem := EquilibriumProblem.ofSystem system
  let problem ← problem.setPartition partition
  let problem ← problem.setTemperature state.temperature
  let problem ← problem.setPressure state.pressure
  let problem ← problem.setElementAmounts state.elementAmounts
  pure problem

/-- `equilibrate(state, partition, options)` (lines 106-117). -/
def equilibrate_state_partition_options (solvers : Solvers) (state : EquilibriumState)
    (partition : Partition) (options : EquilibriumOptions) : Outcome EquilibriumResult :=
  match problemOfState state partition with
  | Except.error e => { state := state, calls := [], result := Except.error e }
  | Except.ok problem => equilibrate_state_problem_options solvers state problem options

/-- `equilibrate(state, options)` (lines 99-104). -/
def equilibrate_state_options (solvers : Solvers) (state : EquilibriumState)
    (options : EquilibriumOptions) : Outcome EquilibriumResult :=
  let system := state.system
  equilibrate_state_partition_options solvers state (Partition.ofSystem system) options

/-- `equilibrate(state, partition)` (lines 94-97). -/
def equilibrate_state_partition (solvers : Solvers) (state : EquilibriumState)
    (partition : Partition) : Outcome EquilibriumResult :=
  equilibrate_state_partition_options solvers state partition {}

/-- `equilibrate(state)` (lines 88-92). -/
def equilibrate_state (solvers : Solvers) (state : EquilibriumState) :
    Outcome EquilibriumResult :=
  let options : EquilibriumOptions := {}
  equilibrate_state_options solvers state options

/-- `equilibrate(problem, options)` (lines 134-139): the state is a local
object; it is returned when the inner call returns, and the inner call's
exception propagates otherwise. The result of the inner call is discarded. -/
def equilibrate_problem_options (solvers : Solvers) (problem : EquilibriumProblem)
    (options : EquilibriumOptions) : Except Exception EquilibriumState :=
  let state := EquilibriumState.ofSystem problem.system
  let inner := equilibrate_state_problem_options solvers state problem options
  match inner.result with
  | Except.error e => Except.error e
  | Except.ok _ => Except.ok inner.state

/-- `equilibrate(problem)` (lines 129-132). -/
def equilibrate_problem (solvers : Solvers) (problem : EquilibriumProblem) :
    Except Exception EquilibriumState :=
  equilibrate_problem_options solvers problem {}

/-- `equilibrate(state, inverse problem, options)` (lines 146-149). -/
def equilibrate_state_inverse_options (solvers : Solvers) (state : EquilibriumState)
    (problem : EquilibriumInverseProblem) (options : EquilibriumOptions) :
    Outcome EquilibriumResult :=
  equilibrateAuxInverse solvers state problem options

/-- `equilibrate(state, inverse problem)` (lines 141-144). -/
def equilibrate_state_inverse (solvers : Solvers) (state : EquilibriumState)
    (problem : EquilibriumInverseProblem) : Outcome EquilibriumResult :=
  equilibrate_state_inverse_options solvers state problem {}

/-- `equilibrate(inverse problem, options)` (lines 156-161). -/
def equilibrate_inverse_options (solvers : Solvers) (problem : EquilibriumInverseProblem)
    (options : EquilibriumOptions) : Except Exception EquilibriumState :=
  let state := EquilibriumState.ofSystem problem.system
  let inner := equilibrate_state_inverse_options solvers state problem options
  match inner.result with
  | Except.error e => Except.error e
  | Except.ok _ => Except.ok inner.state

/-- `equilibrate(inverse problem)` (lines 151-154). -/
def equilibrate_inverse (solvers : Solvers) (problem : EquilibriumInverseProblem) :
    Except Exception EquilibriumState :=
  equilibrate_inverse_options solvers problem {}

/-! ## Functions.hpp -/

/-- A function of temperature and pressure (`FunctionTP`). -/
abbrev FunctionTP := ℚ → ℚ → ℚ

/-- `constantFunctionTP(value)` (Functions.hpp, lines 42-46): the closure
`[=](double, double) { return value; }`. -/
def constantFunctionTP (value : ℚ) : FunctionTP :=
  fun _ _ => value

/-! ## Gems.cpp -/

/-- The width of the C++ type `unsigned`: sums of `unsigned` values wrap
around modulo this number. -/
def unsignedModulus : Nat := 4294967296

/-- The node status codes of GEMS (third-party header `gems/node.h`) that
Gems.cpp names, and `other` for the remaining codes. -/
inductive NodeStatus where
  | NEED_GEM_AIA : NodeStatus
  | OK_GEM_AIA : NodeStatus
  | NEED_GEM_SIA : NodeStatus
  | OK_GEM_SIA : NodeStatus
  | other (code : Nat) : NodeStatus
deriving DecidableEq, Repr

/-- The data of a GEMS `TNode` (third-party header `gems/node.h`) that
Gems.cpp reads. The arrays of the GEMS data structure (`DATACH`) are C arrays
stored next to their counts, so each is a function of the index;
`DCaJI(ispecies, ielement)` is a method of the node. `NodeStatusCH` is the
status member of the node's `DATABR`, and `xDC` holds the species amounts that
`Get_nDC(index)` returns. -/
structure TNode where
  nIC : Nat
  nDC : Nat
  nPH : Nat
  nDCinPH : Nat → Nat
  ICNL : Nat → String
  DCNL : Nat → String
  PHNL : Nat → String
  DCaJI : Nat → Nat → ℚ
  NodeStatusCH : NodeStatus := NodeStatus.other 0
  xDC : Nat → ℚ := fun _ => 0

/-- The options of the Gems backend (`GemsOptions`, declared in Gems.hpp);
`warmstart` is the member Gems.cpp reads. -/
structure GemsOptions where
  warmstart : Bool := false
deriving DecidableEq, Repr

/-- The members of `Gems::Impl` (Gems.cpp, lines 94-107). -/
structure Gems where
  node : TNode
  elapsed_time : ℚ := 0
  options : GemsOptions := {}
  species_names : List String := []

/-- `Gems::numElements` (lines 173-176). -/
def Gems.numElements (gems : Gems) : Nat := gems.node.nIC

/-- `Gems::numSpecies` (lines 178-181). -/
def Gems.numSpecies (gems : Gems) : Nat := gems.node.nDC

/-- `Gems::numPhases` (lines 183-186). -/
def Gems.numPhases (gems : Gems) : Nat := gems.node.nPH

/-- `Gems::numSpeciesInPhase` (lines 188-191). -/
def Gems.numSpeciesInPhase (gems : Gems) (index : Nat) : Nat := gems.node.nDCinPH index

/-- `Gems::elementName` (lines 193-196). -/
def Gems.elementName (gems : Gems) (index : Nat) : String := gems.node.ICNL index

/-- `Gems::speciesName` (lines 198-201): entry `index` of the vector
`species_names`; an index outside the vector, which the C++ code must not
pass, reads as the empty string. -/
def Gems.speciesName (gems : Gems) (index : Nat) : String := gems.species_names.getD index ""

/-- `Gems::phaseName` (lines 203-206). -/
def Gems.phaseName (gems : Gems) (index : Nat) : String := gems.node.PHNL index

/-- `originalSpeciesName` (lines 38-41). -/
def originalSpeciesName (gems : Gems) (index : Nat) : String := gems.node.DCNL index

/-- The loop shared by `indexElement`, `indexSpecies` and `indexPhase`:
`for(; index < size; ++index) if(nameAt(index) == name) return index;
return size;` with `remaining = size - index` iterations still to run. -/
def indexLoop (nameAt : Nat → String) (name : String) (size : Nat) : Nat → Nat → Nat
  | 0, _ => size
  | remaining + 1, index =>
    if nameAt index = name then index
    else indexLoop nameAt name size remaining (index + 1)

/-- `Gems::indexElement` (lines 208-216). -/
def Gems.indexElement (gems : Gems) (name : String) : Nat :=
  let index := 0
  let size := gems.numElements
  indexLoop gems.elementName name size (size - index) index

/-- `Gems::indexSpecies` (lines 218-226). -/
def Gems.indexSpecies (gems : Gems) (name : String) : Nat :=
  let index := 0
  let size := gems.numSpecies
  indexLoop gems.speciesName name size (size - index) index

/-- `Gems::indexPhase` (lines 228-236). -/
def Gems.indexPhase (gems : Gems) (name : String) : Nat :=
  let index := 0
  let size := gems.numPhases
  indexLoop gems.phaseName name size (size - index) index

/-- The loop of `Gems::indexPhaseWithSpecies`, with `remaining` phases still
to visit, the next being phase `i`. -/
def Gems.indexPhaseWithSpeciesLoop (gems : Gems) (ispecies : Nat) : Nat → Nat → Nat → Nat
  | 0, _, _ => gems.numPhases
  | remaining + 1, i, counter =>
    let counter := (counter + gems.numSpeciesInPhase i) % unsignedModulus
    if counter > ispecies then i
    else gems.indexPhaseWithSpeciesLoop ispecies remaining (i + 1) counter

/-- `Gems::indexPhaseWithSpecies` (lines 238-247). -/
def Gems.indexPhaseWithSpecies (gems : Gems) (ispecies : Nat) : Nat :=
  gems.indexPhaseWithSpeciesLoop ispecies gems.numPhases 0 0

/-- `Gems::elementCoefficientInSpecies` (lines 249-252). -/
def Gems.elementCoefficientInSpecies (gems : Gems) (ielement ispecies : Nat) : ℚ :=
  gems.node.DCaJI ispecies ielement

/-- `Gems::setOptions` (lines 168-171). -/
def Gems.setOptions (gems : Gems) (options : GemsOptions) : Gems :=
  { gems with options := options }

/-- `Gems::speciesAmount` (lines 304-307). -/
def Gems.speciesAmount (gems : Gems) (index : Nat) : ℚ := gems.node.xDC index

/-- The loop `for(unsigned i = 0; i < index; ++i) offset += numSpeciesInPhase(i);`
of `Gems::speciesAmountsInPhase` (lines 313-315), in `unsigned` arithmetic. -/
def Gems.offsetOfPhase (gems : Gems) (index : Nat) : Nat :=
  (List.range index).foldl
    (fun offset i => (offset + gems.numSpeciesInPhase i) % unsignedModulus) 0

/-- `Gems::speciesAmountsInPhase` (lines 309-319): entry `i` of the result is
`speciesAmount(offset + i)`. -/
def Gems.speciesAmountsInPhase (gems : Gems) (index : Nat) : Vector :=
  let size := gems.numSpeciesInPhase index
  let offset := gems.offsetOfPhase index
  (List.range size).map fun i => gems.speciesAmount ((offset + i) % unsignedModulus)

/-- What happens outside Gems.cpp during one call of `Gems::equilibrate`:
the run of the GEMS library on the node, `TNode::GEM_run(bool)`, and the time
the clock measures. -/
structure GemsRun where
  GEM_run : TNode → Bool → TNode
  elapsed : ℚ

/-- `Gems::equilibrate` (lines 392-399): the status of the node is set from
the warm-start option, GEMS runs on the node, and the elapsed time is
stored. -/
def Gems.equilibrate (run : GemsRun) (gems : Gems) : Gems :=
  let node : TNode :=
    { gems.node with
      NodeStatusCH :=
        if gems.options.warmstart then NodeStatus.NEED_GEM_SIA else NodeStatus.NEED_GEM_AIA }
  { gems with node := run.GEM_run node false, elapsed_time := run.elapsed }

/-- `Gems::converged` (lines 401-405). -/
def Gems.converged (gems : Gems) : Bool :=
  let status := gems.node.NodeStatusCH
  status == NodeStatus.OK_GEM_AIA || status == NodeStatus.OK_GEM_SIA

/-- The number of species in the phases before phase `p`: "the sum of
`numSpeciesInPhase(q)` for `q < p`", as a natural number. -/
def Gems.speciesBeforePhase (gems : Gems) (p : Nat) : Nat :=
  ((List.range p).map gems.numSpeciesInPhase).sum

/-- The original name `name` occurs among the species of phase `q`, which are
the species `offset(q) .. offset(q) + numSpeciesInPhase(q) - 1`. -/
def Gems.occursInPhase (gems : Gems) (q : Nat) (name : String) : Prop :=
  ∃ k, k < gems.numSpeciesInPhase q ∧
    originalSpeciesName gems (gems.speciesBeforePhase q + k) = name

/-- A dense matrix (`Reaktoro::Matrix`): its dimensions and its entries
`A(j, i)`. -/
structure Matrix where
  rows : Nat
  cols : Nat
  coeff : Nat → Nat → ℚ

/-- `Matrix A(rows, cols)`: a matrix of the given dimensions; the entries,
which C++ leaves uninitialised, are zero here. -/
def Matrix.ofSize (rows cols : Nat) : Matrix :=
  { rows := rows, cols := cols, coeff := fun _ _ => 0 }

/-- The assignment `A(j, i) = value`. -/
def Matrix.assign (A : Matrix) (j i : Nat) (value : ℚ) : Matrix :=
  { A with coeff := fun j' i' => if j' = j ∧ i' = i then value else A.coeff j' i' }

/-- `Gems::formulaMatrix` (lines 321-330). -/
def Gems.formulaMatrix (gems : Gems) : Matrix :=
  let E := gems.numElements
  let N := gems.numSpecies
  let A := Matrix.ofSize E N
  (List.range N).foldl
    (fun A i =>
      (List.range E).foldl (fun A j => A.assign j i (gems.elementCoefficientInSpecies j i)) A)
    A

/-- A `std::set<std::string>`: a list without repetitions. -/
abbrev StringSet := List String

/-- `set.insert(x)`. -/
def StringSet.insert (set : StringSet) (x : String) : StringSet :=
  if x ∈ set then set else set ++ [x]

/-- `set.count(x)`. -/
def StringSet.count (set : StringSet) (x : String) : Nat :=
  if x ∈ set then 1 else 0

/-- A `std::map<std::string, std::set<std::string>>`: a list of entries, one
per key. The order in which the C++ map is traversed (by key) is the order of
first insertion here; `uniqueSpeciesNames` only inserts into sets while
traversing, so the order does not show in its result. -/
abbrev StringSetMap := List (String × StringSet)

/-- `map[key]` read: the set stored for the key, the empty set (which
`operator[]` creates) when there is none. -/
def StringSetMap.at (map : StringSetMap) (key : String) : StringSet :=
  match map.find? (fun entry => entry.1 == key) with
  | some entry => entry.2
  | none => []

/-- `map[key].insert(x)`. -/
def StringSetMap.insertAt : StringSetMap → String → String → StringSetMap
  | [], key, x => [(key, StringSet.insert [] x)]
  | entry :: rest, key, x =>
    if entry.1 = key then (entry.1, StringSet.insert entry.2 x) :: rest
    else entry :: StringSetMap.insertAt rest key x

/-- The first loop of `uniqueSpeciesNames` (lines 45-54): the names of the
species of each phase, by phase name. The second component is `offset`. -/
def speciesNamesInPhase (gems : Gems) : StringSetMap × Nat :=
  (List.range gems.numPhases).foldl
    (fun (acc : StringSetMap × Nat) iphase =>
      let phase_name := gems.phaseName iphase
      let map := (List.range (gems.numSpeciesInPhase iphase)).foldl
        (fun (map : StringSetMap) i =>
          map.insertAt phase_name (originalSpeciesName gems ((acc.2 + i) % unsignedModulus)))
        acc.1
      (map, (acc.2 + gems.numSpeciesInPhase iphase) % unsignedModulus))
    ([], 0)

/-- The second loop of `uniqueSpeciesNames` (lines 56-67): the names of the
phases in which each species name is found. -/
def speciesFoundInPhases (gems : Gems) (species_names_in_phase : StringSetMap) :
    StringSetMap :=
  (List.range gems.numSpecies).foldl
    (fun (found : StringSetMap) i =>
      let species_name := originalSpeciesName gems i
      species_names_in_phase.foldl
        (fun (found : StringSetMap) pair =>
          let phase_name := pair.1
          let species_names_in_this_phase := pair.2
          if StringSet.count species_names_in_this_phase species_name ≠ 0 then
            found.insertAt species_name phase_name
          else found)
        found)
    []

/-- The name the third loop of `uniqueSpeciesNames` pushes for species `i`
(lines 74-86). -/
def uniqueSpeciesName (gems : Gems) (species_found_in_phases : StringSetMap) (i : Nat) :
    String :=
  let species_name := originalSpeciesName gems i
  if (species_found_in_phases.at species_name).length = 1 then species_name
  else
    let iphase := gems.indexPhaseWithSpecies i
    let phase_name := gems.phaseName iphase
    if gems.numSpeciesInPhase iphase = 1 then species_name
    else species_name ++ "(" ++ phase_name ++ ")"

/-- `uniqueSpeciesNames` (lines 43-90). -/
def uniqueSpeciesNames (gems : Gems) : List String :=
  let species_names_in_phase := (speciesNamesInPhase gems).1
  let species_found_in_phases := speciesFoundInPhases gems species_names_in_phase
  (List.range gems.numSpecies).foldl
    (fun (species_names : List String) i =>
      species_names ++ [uniqueSpeciesName gems species_found_in_phases i])
    []

/-- `Gems::Gems(std::string filename)` (lines 113-144), given the node as
`GEM_init` read it from the file: the unique names of the species are
computed and stored. (The cutoffs the constructor resets afterwards belong to
the activity data of GEMS and are not part of this model.) -/
def Gems.ofNode (node : TNode) : Gems :=
  let gems : Gems := { node := node }
  { gems with species_names := uniqueSpeciesNames gems }

/-- Two phases of one species each, the species of both being called "X". -/
def twinNode : TNode :=
  { nIC := 1
    nDC := 2
    nPH := 2
    nDCinPH := fun _ => 1
    ICNL := fun _ => "E"
    DCNL := fun _ => "X"
    PHNL := fun iphase => if iphase = 0 then "A" else "B"
    DCaJI := fun _ _ => 1 }

/-- Three elements and three species named "A", "B" and "C", as in
`test_indexSpecies`, in one phase. -/
def abcNode : TNode :=
  { nIC := 3
    nDC := 3
    nPH := 1
    nDCinPH := fun _ => 3
    ICNL := fun index => ["A", "B", "C"].getD index ""
    DCNL := fun index => ["A", "B", "C"].getD index ""
    PHNL := fun _ => "Phase"
    DCaJI := fun ispecies ielement => if ispecies = ielement then 1 else 0 }

/-- The specification of a name lookup: `r` is at most `size`; no index below
`r` carries the name; if `r` is below `size` then index `r` carries the name
(so `r` is the smallest such index); and `r` is below `size` exactly when some
index below `size` carries the name. -/
def IsFirstIndexOf (nameAt : Nat → String) (size : Nat) (name : String) (r : Nat) : Prop :=
  r ≤ size ∧ (∀ k, k < r → nameAt k ≠ name) ∧ (r < size → nameAt r = name) ∧
    (r < size ↔ ∃ k, k < size ∧ nameAt k = name)

/-! ## LagrangeInterpolator.cpp -/

/-- `interpolate(x, xi, yi, npoints)` (LagrangeInterpolator.cpp, lines 23-38).
The two `const double*` arguments are read at the offsets `0 .. npoints-1`;
a pointer is a function of the offset. -/
def interpolate (x : ℚ) (xi yi : Nat → ℚ) (npoints : Nat) : ℚ :=
  (List.range npoints).foldl
    (fun y i =>
      let li := (List.range npoints).foldl
        (fun li j => li * (if i = j then 1 else (x - xi j) / (xi i - xi j)))
        1
      y + yi i * li)
    0

/-- The members of a `LagrangeInterpolator`: the tables `xi` and `yi` and the
`order`. -/
structure LagrangeInterpolator where
  xi : List ℚ := []
  yi : List ℚ := []
  order : Nat := 0
deriving DecidableEq, Repr

/-- The local `const unsigned size = xi.size();` (line 52): the number of
entries of `xi` as an `unsigned`. -/
def LagrangeInterpolator.size (f : LagrangeInterpolator) : Nat :=
  f.xi.length % unsignedModulus

/-- The loop `unsigned i = 0; while(xi[i] < x) ++i;` (line 61), with the
entries from index `i` on still to be read. It has no result when it reads
past the end of `xi` or when the `unsigned` index would wrap around. -/
def findInterval (x : ℚ) : List ℚ → Nat → Option Nat
  | [], _ => none
  | v :: rest, i =>
    if v < x then
      if i + 1 < unsignedModulus then findInterval x rest (i + 1) else none
    else some i

/-- The number of points used in the interpolation (line 64), in `unsigned`
arithmetic: `(i + order + 1 > size) ? size - i : order + 1`. -/
def LagrangeInterpolator.npoints (f : LagrangeInterpolator) (i : Nat) : Nat :=
  if (i + f.order + 1) % unsignedModulus > f.size then (f.size + unsignedModulus - i) % unsignedModulus
  else (f.order + 1) % unsignedModulus

/-- `LagrangeInterpolator::operator()(x)` (lines 49-67). There is no result
where the C++ code has none: `front()` or `back()` of an empty vector, or a
search loop without result. `&xi[i]` and `&yi[i]` are the tables read from
index `i` on; an entry outside a table, which the C++ code must not read,
reads as zero. -/
def LagrangeInterpolator.apply (f : LagrangeInterpolator) (x : ℚ) : Option ℚ := do
  let front ← f.xi.head?
  if x ≤ front then f.yi.head?
  else
    let back ← f.xi.getLast?
    if x ≥ back then f.yi.getLast?
    else
      let i ← findInterval x f.xi 0
      let npoints := f.npoints i
      pure (interpolate x (fun j => f.xi.getD (i + j) 0) (fun j => f.yi.getD (i + j) 0) npoints)

/-- A table of the squares of 0, 1, 2, 3, interpolated with order 2. -/
def squaresTable : LagrangeInterpolator :=
  { xi := [0, 1, 2, 3], yi := [0, 1, 4, 9], order := 2 }

/-- Two phases, the first with `2^32 - 1` species and the second with two. -/
def hugePhaseNode : TNode :=
  { nIC := 1
    nDC := 1
    nPH := 2
    nDCinPH := fun iphase => if iphase = 0 then 4294967295 else 2
    ICNL := fun _ => "E"
    DCNL := fun _ => "X"
    PHNL := fun iphase => if iphase = 0 then "A" else "B"
    DCaJI := fun _ _ => 1 }

/-- Three phases with 2, 0 and 3 species. -/
def threePhaseNode : TNode :=
  { nIC := 1
    nDC := 5
    nPH := 3
    nDCinPH := fun iphase => [2, 0, 3].getD iphase 0
    ICNL := fun _ => "E"
    DCNL := fun index => ["X", "Y", "X", "Z", "W"].getD index ""
    PHNL := fun iphase => ["A", "B", "C"].getD iphase ""
    DCaJI := fun _ _ => 1 }

/-- Two phases of two species each, both phases called "P"; the species "X"
occurs in both. -/
def sameNamePhasesNode : TNode :=
  { nIC := 1
    nDC := 4
    nPH := 2
    nDCinPH := fun _ => 2
    ICNL := fun _ => "E"
    DCNL := fun index => ["X", "Y", "X", "Z"].getD index ""
    PHNL := fun _ => "P"
    DCaJI := fun _ _ => 1 }

/-- Two phases "A" and "B" of two species each; the species "X" occurs in
both, "Y" and "Z" in one. -/
def sharedSpeciesNode : TNode :=
  { nIC := 1
    nDC := 4
    nPH := 2
    nDCinPH := fun _ => 2
    ICNL := fun _ => "E"
    DCNL := fun index => ["X", "Y", "X", "Z"].getD index ""
    PHNL := fun iphase => if iphase = 0 then "A" else "B"
    DCaJI := fun _ _ => 1 }

/-! ## Concrete inputs used by the examples -/

/-- A solver that always reports non-convergence and leaves the state alone. -/
def failingSolvers : Solvers :=
  { solve := fun _ _ _ state _ _ _ => (state, { optimum := { succeeded := false, iterations := 100 } })
    solveInverse := fun _ _ _ state _ => (state, { optimum := { succeeded := false, iterations := 100 } }) }

/-- A solver that always reports success and leaves the state alone. -/
def succeedingSolvers : Solvers :=
  { solve := fun _ _ _ state _ _ _ => (state, { optimum := { succeeded := true, iterations := 1 } })
    solveInverse := fun _ _ _ state _ => (state, { optimum := { succeeded := true, iterations := 1 } }) }

/-- A system with one element and two species, each holding one atom of it. -/
def exampleSystem : ChemicalSystem :=
  { numElements := 1, numSpecies := 2, formulaMatrix := [[1, 1]] }

/-- Species 0 is an equilibrium species, species 1 a kinetic one. -/
def examplePartition : Partition :=
  { system := exampleSystem
    indicesEquilibriumSpecies := [0]
    indicesKineticSpecies := [1]
    indicesInertSpecies := [] }

/-- One mole of each species at 300 K and 1 bar. -/
def exampleState : EquilibriumState :=
  { system := exampleSystem, temperature := 300, pressure := 100000, speciesAmounts := [1, 1] }

/-- The state above at a temperature of zero. -/
def exampleColdState : EquilibriumState :=
  { system := exampleSystem, temperature := 0, pressure := 100000, speciesAmounts := [1, 1] }

/-- A solver that reports success and leaves in the state the temperature,
the pressure and the budget it was given, in place of the state's own
temperature, pressure and species amounts. -/
def recordingSolvers : Solvers :=
  { solve := fun _ _ _ state T P be =>
      ({ state with temperature := T, pressure := P, speciesAmounts := be },
        { optimum := { succeeded := true, iterations := 1 } })
    solveInverse := fun _ _ _ state _ => (state, { optimum := { succeeded := true, iterations := 1 } }) }

/-- The example state with a negative amount of the equilibrium species. -/
def exampleNegativeState : EquilibriumState :=
  { system := exampleSystem, temperature := 300, pressure := 100000, speciesAmounts := [-3, 1] }

/-- A system with an element and the charge: species 0 holds one atom of the
element, species 1 holds one negative charge. -/
def chargedSystem : ChemicalSystem :=
  { numElements := 2, numSpecies := 2, formulaMatrix := [[1, 0], [0, -1]] }

/-- Species 0 is an equilibrium species, the charged species 1 a kinetic one. -/
def chargedPartition : Partition :=
  { system := chargedSystem
    indicesEquilibriumSpecies := [0]
    indicesKineticSpecies := [1]
    indicesInertSpecies := [] }

/-- One mole of each species of the charged system at 300 K and 1 bar. -/
def chargedState : EquilibriumState :=
  { system := chargedSystem, temperature := 300, pressure := 100000, speciesAmounts := [1, 1] }

/-- A direct problem over the example system. -/
def exampleProblem : EquilibriumProblem :=
  { system := exampleSystem
    partition := examplePartition
    temperature := 300
    pressure := 100000
    elementAmounts := [2] }

/-- An inverse problem over the example system. -/
def exampleInverseProblem : EquilibriumInverseProblem :=
  { system := exampleSystem, partition := examplePartition, constraints := [("pH", 7)] }

/-- The budget the kinetics glue of the specification prescribes: "total
element budget minus amounts now held by kinetic species", restricted to the
equilibrium elements. -/
def budgetWithoutKinetic (state : EquilibriumState) (partition : Partition) : Vector :=
  rows
    (List.zipWith (fun total kinetic => total - kinetic) state.elementAmounts
      (state.elementAmountsInSpecies partition.indicesKineticSpecies))
    partition.indicesEquilibriumElements

/-! ## Theorems: EquilibriumUtils.cpp -/

/-- C1 (as stated, refuted): with a direct and with an inverse solver whose
result has `succeeded = false`, `equilibrate(state, problem, options)` does
not return normally: it throws the runtime error of the assertion. -/
theorem equilibrate_raises_on_nonconvergence :
    (failingSolvers.solve exampleProblem.system exampleProblem.partition {} exampleState
        exampleProblem.temperature exampleProblem.pressure
        (rows exampleProblem.elementAmounts
          exampleProblem.partition.indicesEquilibriumElements)).2.optimum.succeeded = false ∧
    (equilibrate_state_problem_options failingSolvers exampleState exampleProblem {}).result =
      Except.error (Exception.runtimeError equilibrateErrorMessage equilibrateErrorReason) ∧
    (failingSolvers.solveInverse exampleInverseProblem.system exampleInverseProblem.partition {}
        exampleState exampleInverseProblem).2.optimum.succeeded = false ∧
    (equilibrate_state_inverse_options failingSolvers exampleState exampleInverseProblem {}).result =
      Except.error (Exception.runtimeError equilibrateErrorMessage equilibrateErrorReason) := by
  refine ⟨rfl, rfl, rfl, rfl⟩

/-- C1 (amended): `equilibrate(state, problem, options)`, for a direct and for
an inverse problem, returns the wrapped solver's result exactly when that
result has `succeeded = true`; when it has `succeeded = false` the call throws
the runtime error "Could not calculate the equilibrium state of the system."
In both cases the caller's state is as the solver left it. -/
theorem equilibrate_returns_iff_solver_succeeded (solvers : Solvers)
    (state : EquilibriumState) (problem : EquilibriumProblem)
    (inverse : EquilibriumInverseProblem) (options : EquilibriumOptions) :
    (equilibrate_state_problem_options solvers state problem options).result =
      (if (solvers.solve problem.system problem.partition options state problem.temperature
            problem.pressure
            (rows problem.elementAmounts
              problem.partition.indicesEquilibriumElements)).2.optimum.succeeded = true
        then Except.ok (solvers.solve problem.system problem.partition options state
            problem.temperature problem.pressure
            (rows problem.elementAmounts problem.partition.indicesEquilibriumElements)).2
        else Except.error (Exception.runtimeError equilibrateErrorMessage equilibrateErrorReason)) ∧
    (equilibrate_state_problem_options solvers state problem options).state =
      (solvers.solve problem.system problem.partition options state problem.temperature
        problem.pressure
        (rows problem.elementAmounts problem.partition.indicesEquilibriumElements)).1 ∧
    (equilibrate_state_inverse_options solvers state inverse options).result =
      (if (solvers.solveInverse inverse.system inverse.partition options state
            inverse).2.optimum.succeeded = true
        then Except.ok (solvers.solveInverse inverse.system inverse.partition options state
            inverse).2
        else Except.error (Exception.runtimeError equilibrateErrorMessage equilibrateErrorReason)) ∧
    (equilibrate_state_inverse_options solvers state inverse options).state =
      (solvers.solveInverse inverse.system inverse.partition options state inverse).1 := by
  refine ⟨?_, rfl, ?_, rfl⟩
  · simp only [equilibrate_state_problem_options, equilibrateAux, Assert]
    split <;> rfl
  · simp only [equilibrate_state_inverse_options, equilibrateAuxInverse, Assert]
    split <;> rfl

/-- C2: `equilibrate(problem, options)`, for a direct and for an inverse
problem, returns a state only if the underlying solve reported
`succeeded = true` (and the state is then the one the solver left); if the
solve reported `succeeded = false` the call throws instead of returning a
state. -/
theorem equilibrate_problem_returns_only_on_success (solvers : Solvers)
    (problem : EquilibriumProblem) (inverse : EquilibriumInverseProblem)
    (options : EquilibriumOptions) :
    (∀ state, equilibrate_problem_options solvers problem options = Except.ok state →
        (solvers.solve problem.system problem.partition options
            (EquilibriumState.ofSystem problem.system) problem.temperature problem.pressure
            (rows problem.elementAmounts
              problem.partition.indicesEquilibriumElements)).2.optimum.succeeded = true ∧
        state = (solvers.solve problem.system problem.partition options
            (EquilibriumState.ofSystem problem.system) problem.temperature problem.pressure
            (rows problem.elementAmounts problem.partition.indicesEquilibriumElements)).1) ∧
    ((solvers.solve problem.system problem.partition options
          (EquilibriumState.ofSystem problem.system) problem.temperature problem.pressure
          (rows problem.elementAmounts
            problem.partition.indicesEquilibriumElements)).2.optimum.succeeded = false →
        equilibrate_problem_options solvers problem options =
          Except.error (Exception.runtimeError equilibrateErrorMessage equilibrateErrorReason)) ∧
    (∀ state, equilibrate_inverse_options solvers inverse options = Except.ok state →
        (solvers.solveInverse inverse.system inverse.partition options
            (EquilibriumState.ofSystem inverse.system) inverse).2.optimum.succeeded = true ∧
        state = (solvers.solveInverse inverse.system inverse.partition options
            (EquilibriumState.ofSystem inverse.system) inverse).1) ∧
    ((solvers.solveInverse inverse.system inverse.partition options
          (EquilibriumState.ofSystem inverse.system) inverse).2.optimum.succeeded = false →
        equilibrate_inverse_options solvers inverse options =
          Except.error (Exception.runtimeError equilibrateErrorMessage equilibrateErrorReason)) := by
  refine ⟨?_, ?_, ?_, ?_⟩
  · intro state h
    simp only [equilibrate_problem_options, equilibrate_state_problem_options, equilibrateAux,
      Assert] at h
    split at h
    · cases h
    · rename_i res hres
      cases h
      split at hres
      · rename_i hs
        exact ⟨hs, rfl⟩
      · cases hres
  · intro hs
    simp only [equilibrate_problem_options, equilibrate_state_problem_options, equilibrateAux,
      Assert, hs]
    rfl
  · intro state h
    simp only [equilibrate_inverse_options, equilibrate_state_inverse_options,
      equilibrateAuxInverse, Assert] at h
    split at h
    · cases h
    · rename_i res hres
      cases h
      split at hres
      · rename_i hs
        exact ⟨hs, rfl⟩
      · cases hres
  · intro hs
    simp only [equilibrate_inverse_options, equilibrate_state_inverse_options,
      equilibrateAuxInverse, Assert, hs]
    rfl

/-- C3: `equilibrate(state, problem, options)` calls the solver exactly once;
the solver is given the problem's own temperature and pressure and a budget
`be` that has one entry per index of `partition.indicesEquilibriumElements()`,
the `k`-th entry being `problem.elementAmounts()[iee[k]]`. The state left and
the result are those of `solve(state, T, P, be)` with these very arguments,
for every solver; the solver that records its arguments leaves them in the
state. -/
theorem equilibrate_hands_over_equilibrium_element_budget (solvers : Solvers)
    (state : EquilibriumState) (problem : EquilibriumProblem) (options : EquilibriumOptions) :
    ∃ be : Vector,
      (be.length = problem.partition.indicesEquilibriumElements.length ∧
        ∀ (k : Nat) (hk : k < problem.partition.indicesEquilibriumElements.length),
          be[k]? = some (problem.elementAmounts.getD
            (problem.partition.indicesEquilibriumElements.get ⟨k, hk⟩) 0)) ∧
      (equilibrate_state_problem_options solvers state problem options).state =
        (solvers.solve problem.system problem.partition options state problem.temperature
          problem.pressure be).1 ∧
      (equilibrate_state_problem_options solvers state problem options).result =
        (if (solvers.solve problem.system problem.partition options state problem.temperature
              problem.pressure be).2.optimum.succeeded = true
          then Except.ok (solvers.solve problem.system problem.partition options state
              problem.temperature problem.pressure be).2
          else Except.error
            (Exception.runtimeError equilibrateErrorMessage equilibrateErrorReason)) ∧
      (equilibrate_state_problem_options recordingSolvers state problem options).state =
        { state with
          temperature := problem.temperature
          pressure := problem.pressure
          speciesAmounts := be } ∧
      (equilibrate_state_problem_options solvers state problem options).calls =
        [SolverCall.direct problem.temperature problem.pressure be] := by
  refine ⟨rows problem.elementAmounts problem.partition.indicesEquilibriumElements, ⟨?_, ?_⟩,
    rfl, ?_, rfl, rfl⟩
  · simp [rows]
  · intro k hk
    simp [rows, hk]
  · simp only [equilibrate_state_problem_options, equilibrateAux, Assert]
    split <;> rfl

/-- The budget read from a vector that has a non-negative entry at every
index of the list: it passes both tests of `setElementAmounts`. -/
theorem budget_of_valid (b : Vector) (indices : List Nat)
    (h : ∀ i, i ∈ indices → ∃ x, b[i]? = some x ∧ 0 ≤ x) :
    ((indices.filterMap fun i => b[i]?).all fun x => decide (0 ≤ x)) = true ∧
    (indices.filterMap fun i => b[i]?).length = indices.length := by
  induction indices with
  | nil => simp
  | cons i rest ih =>
    obtain ⟨x, hx, hpos⟩ := h i (List.mem_cons_self _ _)
    obtain ⟨hall, hlen⟩ := ih (fun k hk => h k (List.mem_cons_of_mem _ hk))
    rw [List.filterMap_cons, hx]
    constructor
    · rw [List.all_cons, hall]
      simp [hpos]
    · rw [List.length_cons, List.length_cons, hlen]

/-- The budget read from a vector that has a negative entry at an index of
the list fails the sign test of `setElementAmounts`. -/
theorem budget_of_negative (b : Vector) (indices : List Nat)
    (h : ∃ i, i ∈ indices ∧ ∃ x, b[i]? = some x ∧ x < 0) :
    ¬ ((indices.filterMap fun i => b[i]?).all fun x => decide (0 ≤ x)) = true := by
  obtain ⟨i, hi, x, hx, hneg⟩ := h
  intro hall
  rw [List.all_eq_true] at hall
  have hmem : x ∈ indices.filterMap fun i => b[i]? := List.mem_filterMap.mpr ⟨i, hi, hx⟩
  have := hall x hmem
  simp only [decide_eq_true_eq] at this
  exact absurd this (not_le.mpr hneg)

/-- The problem built from a state whose temperature and pressure are
positive and whose element amounts have a non-negative entry at every
equilibrium element: every setter accepts. -/
theorem problemOfState_of_valid (state : EquilibriumState) (partition : Partition)
    (hT : 0 < state.temperature) (hP : 0 < state.pressure)
    (hb : ∀ i, i ∈ partition.indicesEquilibriumElements →
      ∃ x, state.elementAmounts[i]? = some x ∧ 0 ≤ x) :
    problemOfState state partition = Except.ok
      { system := state.system
        partition := partition
        temperature := state.temperature
        pressure := state.pressure
        elementAmounts := state.elementAmounts } := by
  obtain ⟨hall, hlen⟩ := budget_of_valid state.elementAmounts
    partition.indicesEquilibriumElements hb
  simp [problemOfState, EquilibriumProblem.setPartition, EquilibriumProblem.setTemperature,
    EquilibriumProblem.setPressure, EquilibriumProblem.setElementAmounts,
    EquilibriumProblem.budget, EquilibriumProblem.ofSystem, hT, hP, hall, hlen, bind,
    Except.bind, pure, Except.pure]

/-- The problem is not built from a state whose temperature or pressure is
not positive or whose element amounts are negative at an equilibrium
element. -/
theorem problemOfState_of_malformed (state : EquilibriumState) (partition : Partition)
    (h : ¬ 0 < state.temperature ∨ ¬ 0 < state.pressure ∨
      ∃ i, i ∈ partition.indicesEquilibriumElements ∧
        ∃ x, state.elementAmounts[i]? = some x ∧ x < 0) :
    problemOfState state partition = Except.error Exception.invalidProblem := by
  simp only [problemOfState, EquilibriumProblem.setPartition,
    EquilibriumProblem.setTemperature, EquilibriumProblem.setPressure,
    EquilibriumProblem.setElementAmounts, EquilibriumProblem.budget, bind, Except.bind, pure,
    Except.pure]
  by_cases hT : 0 < state.temperature
  · by_cases hP : 0 < state.pressure
    · rcases h with h | h | h
      · exact absurd hT h
      · exact absurd hP h
      · have hall := budget_of_negative state.elementAmounts
          partition.indicesEquilibriumElements h
        simp [hT, hP, hall]
    · simp [hT, hP]
  · simp [hT]

/-- The total element amounts of the example state. -/
theorem exampleState_elementAmounts : exampleState.elementAmounts = [2] := by
  simp [EquilibriumState.elementAmounts, EquilibriumState.elementAmountsInSpecies,
    EquilibriumState.elementAmountInSpecies, ChemicalSystem.coefficient, exampleState,
    exampleSystem, List.range_succ]
  norm_num

/-- The equilibrium elements of the example partition. -/
theorem examplePartition_indicesEquilibriumElements :
    examplePartition.indicesEquilibriumElements = [0] := by
  simp [Partition.indicesEquilibriumElements, ChemicalSystem.coefficient, examplePartition,
    exampleSystem, List.range_succ]

/-- The example state passes the validation of the problem. -/
theorem exampleState_valid :
    ∀ i, i ∈ examplePartition.indicesEquilibriumElements →
      ∃ x, exampleState.elementAmounts[i]? = some x ∧ 0 ≤ x := by
  intro i hi
  rw [examplePartition_indicesEquilibriumElements] at hi
  have hi0 : i = 0 := by simpa using hi
  subst hi0
  rw [exampleState_elementAmounts]
  exact ⟨2, rfl, by norm_num⟩

/-- C4 (as stated, refuted): the example partition has a kinetic species, and
in `equilibrate(state, partition, options)` on the example state the solver
that records its arguments is given the total amount `[2]` of the element as
budget (at 300 K and 1 bar), not the total minus the amount held by the
kinetic species, `[1]`, which is what the equilibrium species hold
(`Ae·ne`). -/
theorem equilibrate_budget_keeps_kinetic_amounts :
    examplePartition.indicesKineticSpecies = [1] ∧
    (equilibrate_state_partition_options recordingSolvers exampleState examplePartition {}).state =
      { system := exampleSystem, temperature := 300, pressure := 100000, speciesAmounts := [2] } ∧
    (equilibrate_state_partition_options recordingSolvers exampleState examplePartition {}).calls =
      [SolverCall.direct 300 100000 [2]] ∧
    exampleState.elementAmounts = [2] ∧
    budgetWithoutKinetic exampleState examplePartition = [1] ∧
    rows (exampleState.elementAmountsInSpecies examplePartition.indicesEquilibriumSpecies)
      examplePartition.indicesEquilibriumElements = [1] ∧
    (equilibrate_state_partition_options recordingSolvers exampleState examplePartition
        {}).state.speciesAmounts ≠ budgetWithoutKinetic exampleState examplePartition := by
  have hb : exampleState.elementAmounts = [2] := exampleState_elementAmounts
  have hk : exampleState.elementAmountsInSpecies examplePartition.indicesKineticSpecies = [1] := by
    simp [EquilibriumState.elementAmountsInSpecies,
      EquilibriumState.elementAmountInSpecies, ChemicalSystem.coefficient, exampleState,
      exampleSystem, examplePartition, List.range_succ]
  have he : exampleState.elementAmountsInSpecies examplePartition.indicesEquilibriumSpecies =
      [1] := by
    simp [EquilibriumState.elementAmountsInSpecies,
      EquilibriumState.elementAmountInSpecies, ChemicalSystem.coefficient, exampleState,
      exampleSystem, examplePartition, List.range_succ]
  have hi : examplePartition.indicesEquilibriumElements = [0] :=
    examplePartition_indicesEquilibriumElements
  have hw : budgetWithoutKinetic exampleState examplePartition = [1] := by
    rw [budgetWithoutKinetic, hb, hk, hi]
    simp [rows]
    norm_num
  have hp := problemOfState_of_valid exampleState examplePartition (by simp [exampleState])
    (by simp [exampleState]) exampleState_valid
  have hs : (equilibrate_state_partition_options recordingSolvers exampleState examplePartition
      {}).state =
      { system := exampleSystem, temperature := 300, pressure := 100000,
        speciesAmounts := [2] } := by
    simp only [equilibrate_state_partition_options, hp, equilibrate_state_problem_options,
      equilibrateAux, hb, hi, recordingSolvers]
    simp [rows, exampleState]
  have hc : (equilibrate_state_partition_options recordingSolvers exampleState examplePartition
      {}).calls = [SolverCall.direct 300 100000 [2]] := by
    simp only [equilibrate_state_partition_options, hp, equilibrate_state_problem_options,
      equilibrateAux, hb, hi]
    simp [rows, exampleState]
  refine ⟨rfl, hs, hc, hb, hw, ?_, ?_⟩
  · rw [he, hi]; simp [rows]
  · rw [hs, hw]
    simp

/-- C4 (amended): for every state with positive temperature and pressure whose
element amounts have a non-negative entry at every equilibrium element, and
every partition (with or without kinetic species),
`equilibrate(state, partition, options)` calls the solver once, and gives it
the state's temperature and pressure and the state's total element amounts
`state.elementAmounts()` restricted to the equilibrium elements; nothing is
subtracted for the kinetic species. The state left and the result are those
of `solve` with these very arguments, for every solver. -/
theorem equilibrate_budget_is_total_element_amounts (solvers : Solvers)
    (state : EquilibriumState) (partition : Partition) (options : EquilibriumOptions)
    (hT : 0 < state.temperature) (hP : 0 < state.pressure)
    (hb : ∀ i, i ∈ partition.indicesEquilibriumElements →
      ∃ x, state.elementAmounts[i]? = some x ∧ 0 ≤ x) :
    (equilibrate_state_partition_options solvers state partition options).state =
      (solvers.solve state.system partition options state state.temperature state.pressure
        (rows state.elementAmounts partition.indicesEquilibriumElements)).1 ∧
    (equilibrate_state_partition_options solvers state partition options).result =
      (if (solvers.solve state.system partition options state state.temperature state.pressure
            (rows state.elementAmounts
              partition.indicesEquilibriumElements)).2.optimum.succeeded = true
        then Except.ok (solvers.solve state.system partition options state state.temperature
            state.pressure (rows state.elementAmounts partition.indicesEquilibriumElements)).2
        else Except.error
          (Exception.runtimeError equilibrateErrorMessage equilibrateErrorReason)) ∧
    (equilibrate_state_partition_options recordingSolvers state partition options).state =
      { state with
        speciesAmounts := rows state.elementAmounts partition.indicesEquilibriumElements } ∧
    (equilibrate_state_partition_options solvers state partition options).calls =
      [SolverCall.direct state.temperature state.pressure
        (rows state.elementAmounts partition.indicesEquilibriumElements)] := by
  refine ⟨?_, ?_, ?_, ?_⟩
  · simp only [equilibrate_state_partition_options,
      problemOfState_of_valid state partition hT hP hb, equilibrate_state_problem_options,
      equilibrateAux]
  · simp only [equilibrate_state_partition_options,
      problemOfState_of_valid state partition hT hP hb, equilibrate_state_problem_options,
      equilibrateAux, Assert]
    split <;> rfl
  · simp only [equilibrate_state_partition_options,
      problemOfState_of_valid state partition hT hP hb, equilibrate_state_problem_options,
      equilibrateAux, recordingSolvers]
  · simp only [equilibrate_state_partition_options,
      problemOfState_of_valid state partition hT hP hb, equilibrate_state_problem_options,
      equilibrateAux]

/-- C4 (amended), at the example state, whose partition has a kinetic
species: the hypotheses hold and the recording solver is given the total. -/
theorem equilibrate_budget_is_total_element_amounts_witness :
    0 < exampleState.temperature ∧ 0 < exampleState.pressure ∧
    (∀ i, i ∈ examplePartition.indicesEquilibriumElements →
      ∃ x, exampleState.elementAmounts[i]? = some x ∧ 0 ≤ x) ∧
    (equilibrate_state_partition_options recordingSolvers exampleState examplePartition {}).state =
      { exampleState with
        speciesAmounts :=
          rows exampleState.elementAmounts examplePartition.indicesEquilibriumElements } :=
  have hT : 0 < exampleState.temperature := by simp [exampleState]
  have hP : 0 < exampleState.pressure := by simp [exampleState]
  ⟨hT, hP, exampleState_valid,
    (equilibrate_budget_is_total_element_amounts recordingSolvers exampleState
      examplePartition {} hT hP exampleState_valid).2.2.1⟩

/-- The total element amounts of the charged state. -/
theorem chargedState_elementAmounts : chargedState.elementAmounts = [1, -1] := by
  simp [EquilibriumState.elementAmounts, EquilibriumState.elementAmountsInSpecies,
    EquilibriumState.elementAmountInSpecies, ChemicalSystem.coefficient, chargedState,
    chargedSystem, List.range_succ]

/-- The equilibrium elements of the charged partition. -/
theorem chargedPartition_indicesEquilibriumElements :
    chargedPartition.indicesEquilibriumElements = [0] := by
  simp [Partition.indicesEquilibriumElements, ChemicalSystem.coefficient, chargedPartition,
    chargedSystem, List.range_succ]

/-- C5 (as stated, refuted): the element amounts `[1, -1]` of the charged
state contain a negative entry, the charge held by the kinetic species; the
charge is not an equilibrium element, the budget is `be = [1]`, the problem
is built, and the solver is called with that budget and returns. -/
theorem equilibrate_accepts_negative_amount_outside_budget :
    chargedState.elementAmounts = [1, -1] ∧
    (∃ x, x ∈ chargedState.elementAmounts ∧ x < 0) ∧
    chargedPartition.indicesEquilibriumElements = [0] ∧
    (equilibrate_state_partition_options recordingSolvers chargedState chargedPartition
        {}).result = Except.ok { optimum := { succeeded := true, iterations := 1 } } ∧
    (equilibrate_state_partition_options recordingSolvers chargedState chargedPartition
        {}).state =
      { system := chargedSystem, temperature := 300, pressure := 100000, speciesAmounts := [1] } ∧
    (equilibrate_state_partition_options recordingSolvers chargedState chargedPartition
        {}).calls = [SolverCall.direct 300 100000 [1]] := by
  have hb := chargedState_elementAmounts
  have hi := chargedPartition_indicesEquilibriumElements
  have hp := problemOfState_of_valid chargedState chargedPartition (by simp [chargedState])
    (by simp [chargedState]) (by
      intro i hmem
      rw [hi] at hmem
      have hi0 : i = 0 := by simpa using hmem
      subst hi0
      rw [hb]
      exact ⟨1, rfl, by norm_num⟩)
  refine ⟨hb, ⟨-1, by rw [hb]; simp, by norm_num⟩, hi, ?_, ?_, ?_⟩
  · simp only [equilibrate_state_partition_options, hp, equilibrate_state_problem_options,
      equilibrateAux, recordingSolvers, Assert]
    rfl
  · simp only [equilibrate_state_partition_options, hp, equilibrate_state_problem_options,
      equilibrateAux, hb, hi, recordingSolvers]
    simp [rows, chargedState]
  · simp only [equilibrate_state_partition_options, hp, equilibrate_state_problem_options,
      equilibrateAux, hb, hi]
    simp [rows, chargedState]

/-- C5 (amended): for every state whose temperature or pressure is not
positive, or whose element amounts have a negative entry at an equilibrium
element (a negative entry of `be`), `equilibrate(state, partition, options)`
throws `InvalidProblem` while the problem is being built: whatever the solver,
the state is untouched and no call of `solve` is made. -/
theorem equilibrate_rejects_malformed_state (solvers : Solvers) (state : EquilibriumState)
    (partition : Partition) (options : EquilibriumOptions)
    (h : ¬ 0 < state.temperature ∨ ¬ 0 < state.pressure ∨
      ∃ i, i ∈ partition.indicesEquilibriumElements ∧
        ∃ x, state.elementAmounts[i]? = some x ∧ x < 0) :
    problemOfState state partition = Except.error Exception.invalidProblem ∧
    (equilibrate_state_partition_options solvers state partition options).result =
      Except.error Exception.invalidProblem ∧
    (equilibrate_state_partition_options solvers state partition options).state = state ∧
    (equilibrate_state_partition_options solvers state partition options).calls = [] := by
  have hp := problemOfState_of_malformed state partition h
  refine ⟨hp, ?_, ?_, ?_⟩ <;> simp only [equilibrate_state_partition_options, hp]

/-- C5 (amended), at the example state cooled to a temperature of zero and
at the example state with the amount `-2` of its equilibrium element: the
recording solver leaves no trace in the state. -/
theorem equilibrate_rejects_malformed_state_witness :
    ¬ 0 < exampleColdState.temperature ∧
    (equilibrate_state_partition_options recordingSolvers exampleColdState examplePartition
        {}).result = Except.error Exception.invalidProblem ∧
    (equilibrate_state_partition_options recordingSolvers exampleColdState examplePartition
        {}).state = exampleColdState ∧
    exampleNegativeState.elementAmounts = [-2] ∧
    (equilibrate_state_partition_options recordingSolvers exampleNegativeState examplePartition
        {}).result = Except.error Exception.invalidProblem ∧
    (equilibrate_state_partition_options recordingSolvers exampleNegativeState examplePartition
        {}).state = exampleNegativeState :=
  have hT : ¬ 0 < exampleColdState.temperature := by simp [exampleColdState]
  have hb : exampleNegativeState.elementAmounts = [-2] := by
    simp [EquilibriumState.elementAmounts, EquilibriumState.elementAmountsInSpecies,
      EquilibriumState.elementAmountInSpecies, ChemicalSystem.coefficient, exampleNegativeState,
      exampleSystem, List.range_succ]
    norm_num
  have h := equilibrate_rejects_malformed_state recordingSolvers exampleColdState
    examplePartition {} (Or.inl hT)
  have hn := equilibrate_rejects_malformed_state recordingSolvers exampleNegativeState
    examplePartition {} (Or.inr (Or.inr ⟨0, by
      rw [examplePartition_indicesEquilibriumElements]; simp, -2, by rw [hb]; rfl, by norm_num⟩))
  ⟨hT, h.2.1, h.2.2.1, hb, hn.2.1, hn.2.2.1⟩

/-! ## Theorems: Gems.cpp and Functions.hpp -/

/-- The lookup loop started at `index` with no match below `index` ends at
the first match, or at `size`. -/
theorem indexLoop_spec (nameAt : Nat → String) (name : String) (size : Nat) :
    ∀ (remaining index : Nat), index + remaining = size →
      (∀ k, k < index → nameAt k ≠ name) →
      IsFirstIndexOf nameAt size name (indexLoop nameAt name size remaining index) := by
  intro remaining
  induction remaining with
  | zero =>
    intro index hsize hbelow
    have hidx : index = size := by omega
    subst hidx
    refine ⟨le_refl _, hbelow, fun h => absurd h (lt_irrefl _), ?_⟩
    constructor
    · intro h
      exact absurd h (lt_irrefl _)
    · rintro ⟨k, hk, hname⟩
      exact absurd hname (hbelow k hk)
  | succ remaining ih =>
    intro index hsize hbelow
    unfold indexLoop
    by_cases hname : nameAt index = name
    · rw [if_pos hname]
      have hlt : index < size := by omega
      exact ⟨le_of_lt hlt, hbelow, fun _ => hname, fun _ => ⟨index, hlt, hname⟩, fun _ => hlt⟩
    · rw [if_neg hname]
      apply ih (index + 1) (by omega)
      intro k hk
      rcases Nat.lt_succ_iff_lt_or_eq.mp hk with h | h
      · exact hbelow k h
      · rw [h]
        exact hname

/-- C7: `indexElement`, `indexSpecies` and `indexPhase` return the smallest
index whose name equals the query if there is one, and the number of elements,
species or phases otherwise; the result is at most the count and is below the
count exactly when the name is present. -/
theorem gems_index_lookup_first_match_or_count (gems : Gems) (name : String) :
    IsFirstIndexOf gems.elementName gems.numElements name (gems.indexElement name) ∧
    IsFirstIndexOf gems.speciesName gems.numSpecies name (gems.indexSpecies name) ∧
    IsFirstIndexOf gems.phaseName gems.numPhases name (gems.indexPhase name) := by
  refine ⟨?_, ?_, ?_⟩
  · exact indexLoop_spec gems.elementName name gems.numElements (gems.numElements - 0) 0
      (by omega) (fun k hk => absurd hk (Nat.not_lt_zero k))
  · exact indexLoop_spec gems.speciesName name gems.numSpecies (gems.numSpecies - 0) 0
      (by omega) (fun k hk => absurd hk (Nat.not_lt_zero k))
  · exact indexLoop_spec gems.phaseName name gems.numPhases (gems.numPhases - 0) 0
      (by omega) (fun k hk => absurd hk (Nat.not_lt_zero k))

/-- The lookups of `test_indexSpecies`, on the species "A", "B", "C". -/
theorem indexSpecies_test_values :
    (Gems.ofNode abcNode).indexSpecies "A" = 0 ∧
    (Gems.ofNode abcNode).indexSpecies "B" = 1 ∧
    (Gems.ofNode abcNode).indexSpecies "C" = 2 ∧
    (Gems.ofNode abcNode).indexSpecies "H" = (Gems.ofNode abcNode).numSpecies := by
  decide

/-- Reading an entry after an assignment. -/
theorem Matrix.assign_coeff (A : Matrix) (j i : Nat) (value : ℚ) (j' i' : Nat) :
    (A.assign j i value).coeff j' i' = if j' = j ∧ i' = i then value else A.coeff j' i' :=
  rfl

/-- The inner loop of `formulaMatrix` fills column `i` down to row `E`. -/
theorem formulaMatrix_inner (f : Nat → ℚ) (i : Nat) (A : Matrix) (E : Nat) :
    ((List.range E).foldl (fun A j => A.assign j i (f j)) A).rows = A.rows ∧
    ((List.range E).foldl (fun A j => A.assign j i (f j)) A).cols = A.cols ∧
    ∀ j' i', ((List.range E).foldl (fun A j => A.assign j i (f j)) A).coeff j' i' =
      if j' < E ∧ i' = i then f j' else A.coeff j' i' := by
  induction E with
  | zero => simp
  | succ E ih =>
    rw [List.range_succ, List.foldl_append]
    obtain ⟨hr, hc, hcoeff⟩ := ih
    refine ⟨?_, ?_, ?_⟩
    · simpa [Matrix.assign] using hr
    · simpa [Matrix.assign] using hc
    · intro j' i'
      simp only [List.foldl_cons, List.foldl_nil]
      rw [Matrix.assign_coeff, hcoeff]
      by_cases hi : i' = i
      · by_cases hj : j' = E
        · simp [hi, hj]
        · by_cases hlt : j' < E
          · simp [hi, hj, hlt, Nat.lt_succ_of_lt hlt]
          · have : ¬ j' < E + 1 := by omega
            simp [hi, hj, hlt, this]
      · simp [hi]

/-- The outer loop of `formulaMatrix` fills the columns up to column `N`. -/
theorem formulaMatrix_outer (g : Nat → Nat → ℚ) (E : Nat) (A : Matrix) (N : Nat) :
    ((List.range N).foldl
      (fun A i => (List.range E).foldl (fun A j => A.assign j i (g j i)) A) A).rows = A.rows ∧
    ((List.range N).foldl
      (fun A i => (List.range E).foldl (fun A j => A.assign j i (g j i)) A) A).cols = A.cols ∧
    ∀ j' i', ((List.range N).foldl
      (fun A i => (List.range E).foldl (fun A j => A.assign j i (g j i)) A) A).coeff j' i' =
      if j' < E ∧ i' < N then g j' i' else A.coeff j' i' := by
  induction N with
  | zero => simp
  | succ N ih =>
    rw [List.range_succ, List.foldl_append]
    obtain ⟨hr, hc, hcoeff⟩ := ih
    simp only [List.foldl_cons, List.foldl_nil]
    obtain ⟨hr', hc', hcoeff'⟩ := formulaMatrix_inner (fun j => g j N) N
      ((List.range N).foldl
        (fun A i => (List.range E).foldl (fun A j => A.assign j i (g j i)) A) A) E
    refine ⟨hr'.trans hr, hc'.trans hc, ?_⟩
    intro j' i'
    rw [hcoeff', hcoeff]
    by_cases hj : j' < E
    · by_cases hi : i' = N
      · simp [hj, hi]
      · by_cases hlt : i' < N
        · simp [hj, hi, hlt, Nat.lt_succ_of_lt hlt]
        · have : ¬ i' < N + 1 := by omega
          simp [hj, hi, hlt, this]
    · simp [hj]

/-- C6: `formulaMatrix()` has `numElements()` rows and `numSpecies()`
columns, and its entry `(j, i)` is `elementCoefficientInSpecies(j, i)` for
every element `j` and species `i` within these dimensions. -/
theorem gems_formulaMatrix_entries (gems : Gems) :
    gems.formulaMatrix.rows = gems.numElements ∧
    gems.formulaMatrix.cols = gems.numSpecies ∧
    ∀ j i, j < gems.numElements → i < gems.numSpecies →
      gems.formulaMatrix.coeff j i = gems.elementCoefficientInSpecies j i := by
  obtain ⟨hr, hc, hcoeff⟩ := formulaMatrix_outer gems.elementCoefficientInSpecies
    gems.numElements (Matrix.ofSize gems.numElements gems.numSpecies) gems.numSpecies
  refine ⟨hr, hc, ?_⟩
  intro j i hj hi
  have h := hcoeff j i
  rw [if_pos ⟨hj, hi⟩] at h
  exact h

/-- C8 (the code at the failing input): in a system of two phases "A" and
"B" (distinct names), each holding the single species "X" (so the names are
distinct within each phase), `uniqueSpeciesNames` returns "X" twice; the
names served by `speciesName` for the species 0 and 1 coincide, and looking
"X" up can only find species 0. -/
theorem uniqueSpeciesNames_twin_phases_collide :
    (Gems.ofNode twinNode).phaseName 0 ≠ (Gems.ofNode twinNode).phaseName 1 ∧
    (Gems.ofNode twinNode).numPhases = 2 ∧
    (Gems.ofNode twinNode).numSpeciesInPhase 0 = 1 ∧
    (Gems.ofNode twinNode).numSpeciesInPhase 1 = 1 ∧
    (Gems.ofNode twinNode).numSpecies = 2 ∧
    uniqueSpeciesNames (Gems.ofNode twinNode) = ["X", "X"] ∧
    (Gems.ofNode twinNode).speciesName 0 = (Gems.ofNode twinNode).speciesName 1 ∧
    (Gems.ofNode twinNode).indexSpecies ((Gems.ofNode twinNode).speciesName 1) = 0 := by
  decide

/-- C9: `constantFunctionTP(value)` is constant: at every temperature and
pressure it returns `value`. -/
theorem constantFunctionTP_is_constant (value T P : ℚ) :
    constantFunctionTP value T P = value :=
  rfl

/-! ## Theorems: LagrangeInterpolator.cpp -/

/-- C13: for a non-empty `xi` and a `yi` of the same length, the interpolator
returns `yi[0]` at every `x <= xi[0]`, and `yi[last]` at every other `x` with
`x >= xi[last]`, whatever the order. -/
theorem lagrange_clamps_outside_table (f : LagrangeInterpolator) (x : ℚ)
    (hne : f.xi ≠ []) (hlen : f.yi.length = f.xi.length) :
    (x ≤ f.xi.head hne → f.apply x = f.yi.head?) ∧
    (¬ x ≤ f.xi.head hne → x ≥ f.xi.getLast hne → f.apply x = f.yi.getLast?) ∧
    (∃ y0 ylast, f.yi.head? = some y0 ∧ f.yi.getLast? = some ylast ∧
      f.yi[0]? = some y0 ∧ f.yi[f.xi.length - 1]? = some ylast) := by
  obtain ⟨front, rest, hxi⟩ := List.exists_cons_of_ne_nil hne
  have hyne : f.yi ≠ [] := by
    intro h
    rw [h, hxi] at hlen
    simp at hlen
  refine ⟨?_, ?_, ?_⟩
  · intro hx
    simp only [LagrangeInterpolator.apply, hxi, List.head?_cons, List.head_cons] at hx ⊢
    simp [hx]
  · intro hx hlast
    have hl : f.xi.getLast? = some (f.xi.getLast hne) := List.getLast?_eq_getLast _ hne
    simp only [hxi, List.head_cons] at hx
    simp only [LagrangeInterpolator.apply, hl]
    simp only [hxi, List.head?_cons] at hlast ⊢
    simp [hx, hlast]
  · refine ⟨f.yi.head hyne, f.yi.getLast hyne, List.head?_eq_head hyne,
      List.getLast?_eq_getLast _ hyne, ?_, ?_⟩
    · rw [← List.head?_eq_getElem?, List.head?_eq_head hyne]
    · rw [← hlen, ← List.getLast?_eq_getElem?, List.getLast?_eq_getLast _ hyne]

/-- Reading inside a table gives the entry. -/
theorem getD_eq_getElem_of_lt (l : List ℚ) (i : Nat) (h : i < l.length) :
    l.getD i 0 = l[i] := by
  simp [List.getD, List.getElem?_eq_getElem h]

/-- In a strictly increasing table, entries at increasing indices increase. -/
theorem getD_lt_getD_of_pairwise (l : List ℚ) (hs : l.Pairwise (fun a b => a < b))
    (a b : Nat) (hab : a < b) (hb : b < l.length) : l.getD a 0 < l.getD b 0 := by
  rw [getD_eq_getElem_of_lt l a (lt_trans hab hb), getD_eq_getElem_of_lt l b hb]
  exact (List.pairwise_iff_getElem.mp hs) a b (lt_trans hab hb) hb hab

/-- The first entry of a non-empty table. -/
theorem head?_eq_getD (l : List ℚ) (h : 1 ≤ l.length) : l.head? = some (l.getD 0 0) := by
  cases l with
  | nil => simp at h
  | cons v rest => simp

/-- The last entry of a non-empty table. -/
theorem getLast?_eq_getD (l : List ℚ) (h : 1 ≤ l.length) :
    l.getLast? = some (l.getD (l.length - 1) 0) := by
  have hlt : l.length - 1 < l.length := by omega
  rw [List.getLast?_eq_getElem?, List.getElem?_eq_getElem hlt, getD_eq_getElem_of_lt l _ hlt]

/-- The search loop started at index `i0` on the entries `l` stops at the
first entry that is not below `x`, if the index does not wrap around. -/
theorem findInterval_eq_some (x : ℚ) :
    ∀ (l : List ℚ) (i0 k : Nat), k < l.length → (∀ a, a < k → l.getD a 0 < x) →
      ¬ l.getD k 0 < x → i0 + k < unsignedModulus → findInterval x l i0 = some (i0 + k) := by
  intro l
  induction l with
  | nil =>
    intro i0 k hk
    simp at hk
  | cons v rest ih =>
    intro i0 k hk hbelow hstop hwrap
    cases k with
    | zero =>
      have hv : ¬ v < x := by simpa using hstop
      simp [findInterval, hv]
    | succ k =>
      have hv : v < x := by simpa using hbelow 0 (Nat.succ_pos k)
      have hw : i0 + 1 < unsignedModulus := by omega
      have hrec := ih (i0 + 1) k (by simpa using hk)
        (fun a ha => by simpa using hbelow (a + 1) (Nat.succ_lt_succ ha))
        (by simpa using hstop) (by omega)
      simp only [findInterval, hv, hw, if_true]
      rw [hrec]
      congr 1
      omega

/-- On a table with fewer than `2^32` entries whose last entry is not below
`x`, the search loop stops at the least index whose entry is not below `x`. -/
theorem findInterval_least (x : ℚ) (l : List ℚ) (hlen : l.length < unsignedModulus)
    (hpos : 1 ≤ l.length) (hlast : ¬ l.getD (l.length - 1) 0 < x) :
    ∃ i, findInterval x l 0 = some i ∧ i < l.length ∧ ¬ l.getD i 0 < x ∧
      ∀ a, a < i → l.getD a 0 < x := by
  have hex : ∃ k, k < l.length ∧ ¬ l.getD k 0 < x := ⟨l.length - 1, by omega, hlast⟩
  classical
  refine ⟨Nat.find hex, ?_, (Nat.find_spec hex).1, (Nat.find_spec hex).2, ?_⟩
  · have h := findInterval_eq_some x l 0 (Nat.find hex) (Nat.find_spec hex).1 ?_
      (Nat.find_spec hex).2 (by have := (Nat.find_spec hex).1; omega)
    · simpa using h
    · intro a ha
      by_contra hna
      exact Nat.find_min hex ha ⟨lt_trans ha (Nat.find_spec hex).1, hna⟩
  · intro a ha
    by_contra hna
    exact Nat.find_min hex ha ⟨lt_trans ha (Nat.find_spec hex).1, hna⟩

/-- Without wrap-around, the number of points is `size - i` when fewer than
`order + 1` entries remain from index `i` on, and `order + 1` otherwise. -/
theorem npoints_of_no_overflow (f : LagrangeInterpolator) (i : Nat)
    (hsize : f.order + f.xi.length < unsignedModulus) (hi : i < f.xi.length) :
    f.npoints i = if i + f.order + 1 > f.xi.length then f.xi.length - i else f.order + 1 := by
  simp only [LagrangeInterpolator.npoints, LagrangeInterpolator.size, unsignedModulus] at *
  have h1 : f.xi.length % 4294967296 = f.xi.length := Nat.mod_eq_of_lt (by omega)
  rw [h1]
  by_cases hover : i + f.order + 1 > f.xi.length
  · rw [if_pos hover]
    by_cases hwrap : i + f.order + 1 < 4294967296
    · rw [Nat.mod_eq_of_lt hwrap, if_pos hover]
      omega
    · omega
  · rw [if_neg hover]
    have hwrap : i + f.order + 1 < 4294967296 := by omega
    rw [Nat.mod_eq_of_lt hwrap, if_neg hover]
    omega

/-- For `x` strictly between the first and the last entry of `xi`, the
interpolator runs the search loop and interpolates from the index found. -/
theorem apply_interior (f : LagrangeInterpolator) (x : ℚ) (hpos : 1 ≤ f.xi.length)
    (hfirst : f.xi.getD 0 0 < x) (hlast : x < f.xi.getD (f.xi.length - 1) 0) :
    f.apply x = (findInterval x f.xi 0).map fun i =>
      interpolate x (fun j => f.xi.getD (i + j) 0) (fun j => f.yi.getD (i + j) 0)
        (f.npoints i) := by
  simp only [LagrangeInterpolator.apply, head?_eq_getD f.xi hpos, getLast?_eq_getD f.xi hpos,
    Option.bind_eq_bind, Option.some_bind, if_neg (not_le.mpr hfirst), ge_iff_le,
    if_neg (not_le.mpr hlast)]
  cases findInterval x f.xi 0 <;> rfl

/-- A summing loop over `0 .. n-1` computes the sum. -/
theorem foldl_add_range (g : Nat → ℚ) (n : Nat) :
    (List.range n).foldl (fun y i => y + g i) 0 = ∑ i ∈ Finset.range n, g i := by
  induction n with
  | zero => simp
  | succ n ih => rw [List.range_succ, List.foldl_append, ih, Finset.sum_range_succ]; rfl

/-- A multiplying loop over `0 .. n-1` computes the product. -/
theorem foldl_mul_range (g : Nat → ℚ) (n : Nat) :
    (List.range n).foldl (fun li j => li * g j) 1 = ∏ j ∈ Finset.range n, g j := by
  induction n with
  | zero => simp
  | succ n ih => rw [List.range_succ, List.foldl_append, ih, Finset.prod_range_succ]; rfl

/-- The value `interpolate` computes, as the Lagrange sum of products. -/
theorem interpolate_eq_sum (x : ℚ) (xi yi : Nat → ℚ) (npoints : Nat) :
    interpolate x xi yi npoints =
      ∑ i ∈ Finset.range npoints,
        yi i * ∏ j ∈ Finset.range npoints, (if i = j then 1 else (x - xi j) / (xi i - xi j)) := by
  unfold interpolate
  rw [← foldl_add_range]
  congr 1
  funext y i
  simp only []
  rw [foldl_mul_range]

/-- The value `interpolate` computes is the value at `x` of the Lagrange
interpolation polynomial through the `npoints` points read. -/
theorem interpolate_eq_eval (x : ℚ) (xi yi : Nat → ℚ) (npoints : Nat) :
    interpolate x xi yi npoints =
      Polynomial.eval x (Lagrange.interpolate (Finset.range npoints) xi yi) := by
  rw [interpolate_eq_sum, Lagrange.interpolate_apply, Polynomial.eval_finset_sum]
  apply Finset.sum_congr rfl
  intro i _
  rw [Polynomial.eval_mul, Polynomial.eval_C, Lagrange.basis, Polynomial.eval_prod]
  congr 1
  rw [← Finset.prod_erase (Finset.range npoints) (a := i) (by simp)]
  apply Finset.prod_congr rfl
  intro j hj
  have hij : i ≠ j := (Finset.ne_of_mem_erase hj).symm
  simp [hij, Lagrange.basisDivisor, div_eq_inv_mul]

/-- The nodes read from a strictly increasing table are pairwise distinct. -/
theorem nodes_injOn (l : List ℚ) (hs : l.Pairwise (fun a b => a < b)) (i n : Nat)
    (hin : i + n ≤ l.length) :
    Set.InjOn (fun j => l.getD (i + j) 0) (Finset.range n : Set Nat) := by
  intro a ha b hb hab
  have ha' : a < n := by simpa using ha
  have hb' : b < n := by simpa using hb
  simp only at hab
  rcases Nat.lt_trichotomy a b with h | h | h
  · have := getD_lt_getD_of_pairwise l hs (i + a) (i + b) (by omega) (by omega)
    exact absurd hab (ne_of_lt this)
  · exact h
  · have := getD_lt_getD_of_pairwise l hs (i + b) (i + a) (by omega) (by omega)
    exact absurd hab.symm (ne_of_lt this)

/-- C16: for a strictly increasing `xi` with at least two entries, a `yi` of
the same length, `order + size < 2^32` and `x` strictly between the first and
the last entry, the search loop ends at an index `i` with
`1 <= i <= size - 1`; the number of points satisfies `1 <= npoints <= order+1`
and `i + npoints <= size`, so every entry of `xi` and `yi` read is inside its
table; no denominator `xi[a] - xi[b]` of the Lagrange factors is zero; and the
call returns the interpolated value. -/
theorem lagrange_interior_evaluation_safe (f : LagrangeInterpolator) (x : ℚ)
    (hs : f.xi.Pairwise (fun a b => a < b)) (hsize : 2 ≤ f.xi.length)
    (hy : f.yi.length = f.xi.length) (hover : f.order + f.xi.length < unsignedModulus)
    (hfirst : f.xi.getD 0 0 < x) (hlast : x < f.xi.getD (f.xi.length - 1) 0) :
    f.size = f.xi.length ∧
    ∃ i, findInterval x f.xi 0 = some i ∧ 1 ≤ i ∧ i ≤ f.size - 1 ∧
      1 ≤ f.npoints i ∧ f.npoints i ≤ f.order + 1 ∧
      i + f.npoints i ≤ f.xi.length ∧ i + f.npoints i ≤ f.yi.length ∧
      (∀ a b, a < f.npoints i → b < f.npoints i → a ≠ b →
        f.xi.getD (i + a) 0 - f.xi.getD (i + b) 0 ≠ 0) ∧
      f.apply x = some (interpolate x (fun j => f.xi.getD (i + j) 0)
        (fun j => f.yi.getD (i + j) 0) (f.npoints i)) := by
  have hM : f.xi.length < unsignedModulus := by omega
  have hsz : f.size = f.xi.length := Nat.mod_eq_of_lt hM
  obtain ⟨i, hfind, hi, hstop, hbelow⟩ :=
    findInterval_least x f.xi hM (by omega) (not_lt.mpr (le_of_lt hlast))
  have hi1 : 1 ≤ i := by
    rcases Nat.eq_zero_or_pos i with h | h
    · rw [h] at hstop
      exact absurd hfirst hstop
    · exact h
  have hnp := npoints_of_no_overflow f i hover hi
  have hnp1 : 1 ≤ f.npoints i := by
    rw [hnp]; split <;> omega
  have hnp2 : f.npoints i ≤ f.order + 1 := by
    rw [hnp]; split <;> omega
  have hnp3 : i + f.npoints i ≤ f.xi.length := by
    rw [hnp]; split <;> omega
  refine ⟨hsz, i, hfind, hi1, by rw [hsz]; omega, hnp1, hnp2, hnp3, by rw [hy]; exact hnp3,
    ?_, ?_⟩
  · intro a b ha hb hab
    have hinj := nodes_injOn f.xi hs i (f.npoints i) hnp3
    intro hzero
    exact hab (hinj (by simpa using ha) (by simpa using hb) (sub_eq_zero.mp hzero))
  · rw [apply_interior f x (by omega) hfirst hlast, hfind]
    rfl

/-- The abscissas of the table of squares increase strictly. -/
theorem squaresTable_increasing : squaresTable.xi.Pairwise (fun a b => a < b) := by
  simp [squaresTable]
  norm_num

/-- C16, on the table of squares at `x = 1/2`. -/
theorem lagrange_interior_evaluation_safe_witness :
    ∃ i, findInterval (1 / 2) squaresTable.xi 0 = some i ∧ 1 ≤ i ∧ i ≤ squaresTable.size - 1 ∧
      1 ≤ squaresTable.npoints i ∧ squaresTable.npoints i ≤ squaresTable.order + 1 ∧
      i + squaresTable.npoints i ≤ squaresTable.xi.length ∧
      i + squaresTable.npoints i ≤ squaresTable.yi.length ∧
      (∀ a b, a < squaresTable.npoints i → b < squaresTable.npoints i → a ≠ b →
        squaresTable.xi.getD (i + a) 0 - squaresTable.xi.getD (i + b) 0 ≠ 0) ∧
      squaresTable.apply (1 / 2) = some (interpolate (1 / 2)
        (fun j => squaresTable.xi.getD (i + j) 0)
        (fun j => squaresTable.yi.getD (i + j) 0) (squaresTable.npoints i)) :=
  (lagrange_interior_evaluation_safe squaresTable (1 / 2)
    squaresTable_increasing (by simp [squaresTable]) (by simp [squaresTable])
    (by simp [squaresTable, unsignedModulus]) (by norm_num [squaresTable])
    (by norm_num [squaresTable])).2

/-- C13, on the table of squares: below the table the value is `yi[0] = 0`,
above it `yi[last] = 9`. -/
theorem lagrange_clamps_outside_table_witness :
    squaresTable.apply (-1) = some 0 ∧ squaresTable.apply 5 = some 9 :=
  have hne : squaresTable.xi ≠ [] := by simp [squaresTable]
  have h := lagrange_clamps_outside_table squaresTable (-1) hne rfl
  have h5 := lagrange_clamps_outside_table squaresTable 5 hne rfl
  ⟨h.1 (by norm_num [squaresTable]),
    h5.2.1 (by norm_num [squaresTable]) (by norm_num [squaresTable])⟩

/-- C14: for a strictly increasing `xi`, a `yi` of the same length and
`order + size < 2^32`, evaluating at the node `xi[k]` returns `yi[k]`, for
every index `k` of the table. -/
theorem lagrange_reproduces_table_at_nodes (f : LagrangeInterpolator) (k : Nat)
    (hs : f.xi.Pairwise (fun a b => a < b)) (hy : f.yi.length = f.xi.length)
    (hover : f.order + f.xi.length < unsignedModulus) (hk : k < f.xi.length) :
    f.apply (f.xi.getD k 0) = some (f.yi.getD k 0) ∧ f.yi[k]? = some (f.yi.getD k 0) := by
  have hyk : f.yi[k]? = some (f.yi.getD k 0) := by
    have hk' : k < f.yi.length := by omega
    rw [List.getElem?_eq_getElem hk', getD_eq_getElem_of_lt f.yi k hk']
  refine ⟨?_, hyk⟩
  have hpos : 1 ≤ f.xi.length := by omega
  have hypos : 1 ≤ f.yi.length := by omega
  by_cases hk0 : k = 0
  · subst hk0
    simp only [LagrangeInterpolator.apply, head?_eq_getD f.xi hpos, Option.bind_eq_bind,
      Option.some_bind, le_refl, if_true]
    exact head?_eq_getD f.yi hypos
  · have hfirst : f.xi.getD 0 0 < f.xi.getD k 0 :=
      getD_lt_getD_of_pairwise f.xi hs 0 k (by omega) hk
    by_cases hkl : k = f.xi.length - 1
    · simp only [LagrangeInterpolator.apply, head?_eq_getD f.xi hpos,
        getLast?_eq_getD f.xi hpos, Option.bind_eq_bind, Option.some_bind,
        if_neg (not_le.mpr hfirst)]
      rw [if_pos (by rw [hkl])]
      rw [getLast?_eq_getD f.yi hypos, hy, hkl]
    · have hlast : f.xi.getD k 0 < f.xi.getD (f.xi.length - 1) 0 :=
        getD_lt_getD_of_pairwise f.xi hs k (f.xi.length - 1) (by omega) (by omega)
      have hfind := findInterval_eq_some (f.xi.getD k 0) f.xi 0 k hk
        (fun a ha => getD_lt_getD_of_pairwise f.xi hs a k ha hk) (lt_irrefl _)
        (by omega)
      rw [Nat.zero_add] at hfind
      have hnp := npoints_of_no_overflow f k hover hk
      have hnp1 : 1 ≤ f.npoints k := by
        rw [hnp]; split <;> omega
      have hnp3 : k + f.npoints k ≤ f.xi.length := by
        rw [hnp]; split <;> omega
      rw [apply_interior f _ hpos hfirst hlast, hfind, Option.map_some', interpolate_eq_eval]
      have hnode := Lagrange.eval_interpolate_at_node (fun j => f.yi.getD (k + j) 0)
        (nodes_injOn f.xi hs k (f.npoints k) hnp3) (Finset.mem_range.mpr hnp1)
      simpa using hnode

/-- C14, on the table of squares at the node `xi[2] = 2`. -/
theorem lagrange_reproduces_table_at_nodes_witness :
    squaresTable.apply (squaresTable.xi.getD 2 0) = some (squaresTable.yi.getD 2 0) :=
  (lagrange_reproduces_table_at_nodes squaresTable 2 squaresTable_increasing rfl
    (by simp [squaresTable, unsignedModulus]) (by simp [squaresTable])).1

/-- C15: for a strictly increasing `xi`, a polynomial `p` of degree at most
`order` with `yi[k] = p(xi[k])` for every index `k` of the table, and `x`
strictly between the first and the last entry: if `i` is the least index with
`xi[i] >= x` and `i + order + 1 <= size`, the interpolator returns `p(x)`. -/
theorem lagrange_reproduces_polynomials (f : LagrangeInterpolator) (p : Polynomial ℚ)
    (x : ℚ) (i : Nat) (hs : f.xi.Pairwise (fun a b => a < b))
    (hp : p.natDegree ≤ f.order)
    (hy : ∀ k, k < f.xi.length → f.yi[k]? = some (Polynomial.eval (f.xi.getD k 0) p))
    (hfirst : f.xi.getD 0 0 < x) (hlast : x < f.xi.getD (f.xi.length - 1) 0)
    (hi : i < f.xi.length) (hge : x ≤ f.xi.getD i 0) (hleast : ∀ a, a < i → f.xi.getD a 0 < x)
    (hfit : i + f.order + 1 ≤ f.size) :
    f.apply x = some (Polynomial.eval x p) := by
  have hsizeM : f.size < unsignedModulus := Nat.mod_lt _ (by simp [unsignedModulus])
  have hsizeLe : f.size ≤ f.xi.length := Nat.mod_le _ _
  have hfind := findInterval_eq_some x f.xi 0 i hi hleast (not_lt.mpr hge) (by omega)
  rw [Nat.zero_add] at hfind
  have hnp : f.npoints i = f.order + 1 := by
    simp only [LagrangeInterpolator.npoints]
    rw [Nat.mod_eq_of_lt (by omega), if_neg (by omega), Nat.mod_eq_of_lt (by omega)]
  rw [apply_interior f x (by omega) hfirst hlast, hfind, Option.map_some', hnp,
    interpolate_eq_eval]
  have hinj := nodes_injOn f.xi hs i (f.order + 1) (by omega)
  have hdeg : p.degree < (Finset.range (f.order + 1)).card := by
    rw [Finset.card_range]
    exact lt_of_le_of_lt (Polynomial.degree_le_of_natDegree_le hp)
      (by exact_mod_cast Nat.lt_succ_self f.order)
  have heval : ∀ j ∈ Finset.range (f.order + 1),
      Polynomial.eval (f.xi.getD (i + j) 0) p = f.yi.getD (i + j) 0 := by
    intro j hj
    have hj' : j < f.order + 1 := Finset.mem_range.mp hj
    have h := hy (i + j) (by omega)
    simp [List.getD, h]
  rw [← Lagrange.eq_interpolate_of_eval_eq (fun j => f.yi.getD (i + j) 0) hinj hdeg heval]

/-- C15, on the table of squares: the parabola `p = X^2` is reproduced at
`x = 1/2` with order 2, where `i = 1` and `i + order + 1 = 4 = size`. -/
theorem lagrange_reproduces_polynomials_witness :
    squaresTable.apply (1 / 2) =
      some (Polynomial.eval (1 / 2) (Polynomial.X ^ 2 : Polynomial ℚ)) :=
  lagrange_reproduces_polynomials squaresTable (Polynomial.X ^ 2) (1 / 2) 1
    squaresTable_increasing (Polynomial.natDegree_X_pow_le 2)
    (by
      intro k hk
      have hk4 : k < 4 := by simpa [squaresTable] using hk
      interval_cases k <;> norm_num [squaresTable])
    (by norm_num [squaresTable]) (by norm_num [squaresTable]) (by simp [squaresTable])
    (by norm_num [squaresTable])
    (by
      intro a ha
      have ha0 : a = 0 := by omega
      subst ha0
      norm_num [squaresTable])
    (by simp [squaresTable, LagrangeInterpolator.size, unsignedModulus])

/-! ## Theorems: Gems.cpp, second part -/

/-- C18: after `setOptions(options)`, whatever options were set before,
`equilibrate` hands GEMS the node with status `NEED_GEM_SIA` if
`options.warmstart` is true and `NEED_GEM_AIA` otherwise; the status is
`NEED_GEM_SIA` exactly when `options.warmstart` is true. -/
theorem gems_equilibrate_honours_warmstart (run : GemsRun) (gems : Gems)
    (earlier options : GemsOptions) :
    (((gems.setOptions earlier).setOptions options).equilibrate run).node =
      run.GEM_run
        { gems.node with
          NodeStatusCH :=
            if options.warmstart then NodeStatus.NEED_GEM_SIA else NodeStatus.NEED_GEM_AIA }
        false ∧
    ((if options.warmstart then NodeStatus.NEED_GEM_SIA else NodeStatus.NEED_GEM_AIA) =
        NodeStatus.NEED_GEM_SIA ↔ options.warmstart = true) ∧
    ((if options.warmstart then NodeStatus.NEED_GEM_SIA else NodeStatus.NEED_GEM_AIA) =
        NodeStatus.NEED_GEM_AIA ↔ options.warmstart = false) := by
  refine ⟨rfl, ?_, ?_⟩ <;> cases options.warmstart <;> simp

/-- One more phase adds its species to the count. -/
theorem speciesBeforePhase_succ (gems : Gems) (p : Nat) :
    gems.speciesBeforePhase (p + 1) = gems.speciesBeforePhase p + gems.numSpeciesInPhase p := by
  simp [Gems.speciesBeforePhase, List.range_succ]

/-- The count of species before a phase grows with the phase. -/
theorem speciesBeforePhase_mono (gems : Gems) (p q : Nat) (hpq : p ≤ q) :
    gems.speciesBeforePhase p ≤ gems.speciesBeforePhase q := by
  induction q with
  | zero =>
    have : p = 0 := by omega
    rw [this]
  | succ q ih =>
    rcases Nat.lt_or_ge p (q + 1) with h | h
    · rw [speciesBeforePhase_succ]
      have := ih (by omega)
      omega
    · have : p = q + 1 := by omega
      rw [this]

/-- While the count fits in an `unsigned`, the offset loop of
`speciesAmountsInPhase` computes the count of species before the phase. -/
theorem offsetOfPhase_eq (gems : Gems) (p : Nat)
    (hM : gems.speciesBeforePhase p < unsignedModulus) :
    gems.offsetOfPhase p = gems.speciesBeforePhase p := by
  induction p with
  | zero => simp [Gems.offsetOfPhase, Gems.speciesBeforePhase]
  | succ p ih =>
    have hp : gems.speciesBeforePhase p < unsignedModulus :=
      lt_of_le_of_lt (speciesBeforePhase_mono gems p (p + 1) (by omega)) hM
    have hrec := ih hp
    simp only [Gems.offsetOfPhase] at hrec ⊢
    rw [List.range_succ, List.foldl_append, hrec]
    simp only [List.foldl_cons, List.foldl_nil]
    rw [speciesBeforePhase_succ] at hM ⊢
    exact Nat.mod_eq_of_lt hM

/-- The loop of `indexPhaseWithSpecies`, entered at phase `i` with the counter
at the count of species before phase `i`, none of which is species `s`. -/
theorem indexPhaseWithSpeciesLoop_spec (gems : Gems) (s : Nat)
    (hM : gems.speciesBeforePhase gems.numPhases < unsignedModulus) :
    ∀ (remaining i : Nat), i + remaining = gems.numPhases → gems.speciesBeforePhase i ≤ s →
      (s < gems.speciesBeforePhase gems.numPhases →
        gems.indexPhaseWithSpeciesLoop s remaining i (gems.speciesBeforePhase i) <
            gems.numPhases ∧
        gems.speciesBeforePhase
            (gems.indexPhaseWithSpeciesLoop s remaining i (gems.speciesBeforePhase i)) ≤ s ∧
        s < gems.speciesBeforePhase
            (gems.indexPhaseWithSpeciesLoop s remaining i (gems.speciesBeforePhase i)) +
          gems.numSpeciesInPhase
            (gems.indexPhaseWithSpeciesLoop s remaining i (gems.speciesBeforePhase i))) ∧
      (gems.speciesBeforePhase gems.numPhases ≤ s →
        gems.indexPhaseWithSpeciesLoop s remaining i (gems.speciesBeforePhase i) =
          gems.numPhases) := by
  intro remaining
  induction remaining with
  | zero =>
    intro i hi hbefore
    have hi' : i = gems.numPhases := by omega
    subst hi'
    constructor
    · intro hlt
      omega
    · intro _
      rfl
  | succ remaining ih =>
    intro i hi hbefore
    have hnext : (gems.speciesBeforePhase i + gems.numSpeciesInPhase i) % unsignedModulus =
        gems.speciesBeforePhase (i + 1) := by
      rw [speciesBeforePhase_succ]
      apply Nat.mod_eq_of_lt
      have := speciesBeforePhase_mono gems (i + 1) gems.numPhases (by omega)
      rw [speciesBeforePhase_succ] at this
      omega
    unfold Gems.indexPhaseWithSpeciesLoop
    simp only [hnext]
    by_cases hcover : gems.speciesBeforePhase (i + 1) > s
    · rw [if_pos hcover]
      constructor
      · intro _
        refine ⟨by omega, hbefore, ?_⟩
        rw [speciesBeforePhase_succ] at hcover
        exact hcover
      · intro hge
        have := speciesBeforePhase_mono gems (i + 1) gems.numPhases (by omega)
        omega
    · rw [if_neg hcover]
      exact ih (i + 1) (by omega) (by omega)

/-- C20 (as stated, refuted): with phases of `2^32 - 1` and 2 species, the
species index `s = 2^32 - 1` is smaller than the sum of the species counts and
lies in phase 1 (`offset(1) <= s < offset(1) + 2`), but
`indexPhaseWithSpecies(s)` returns `numPhases()`: the `unsigned` counter has
wrapped around. -/
theorem gems_indexPhaseWithSpecies_wraps_around :
    4294967295 < (Gems.ofNode hugePhaseNode).speciesBeforePhase
      (Gems.ofNode hugePhaseNode).numPhases ∧
    (Gems.ofNode hugePhaseNode).speciesBeforePhase 1 ≤ 4294967295 ∧
    4294967295 < (Gems.ofNode hugePhaseNode).speciesBeforePhase 1 +
      (Gems.ofNode hugePhaseNode).numSpeciesInPhase 1 ∧
    (Gems.ofNode hugePhaseNode).indexPhaseWithSpecies 4294967295 =
      (Gems.ofNode hugePhaseNode).numPhases ∧
    (Gems.ofNode hugePhaseNode).numPhases = 2 := by
  decide

/-- C20 (amended): when the sum of `numSpeciesInPhase` over all phases is
below `2^32`, `indexPhaseWithSpecies(s)` returns, for every `s` smaller than
that sum, a phase `p` with `offset(p) <= s < offset(p) + numSpeciesInPhase(p)`,
where `offset(p)` is the sum of `numSpeciesInPhase(q)` for `q < p`, which is
also the offset `speciesAmountsInPhase` computes; for every `s` at or beyond
the sum it returns `numPhases()`. -/
theorem gems_indexPhaseWithSpecies_locates_phase (gems : Gems) (s : Nat)
    (hM : gems.speciesBeforePhase gems.numPhases < unsignedModulus) :
    (s < gems.speciesBeforePhase gems.numPhases →
      gems.indexPhaseWithSpecies s < gems.numPhases ∧
      gems.speciesBeforePhase (gems.indexPhaseWithSpecies s) ≤ s ∧
      s < gems.speciesBeforePhase (gems.indexPhaseWithSpecies s) +
        gems.numSpeciesInPhase (gems.indexPhaseWithSpecies s) ∧
      gems.offsetOfPhase (gems.indexPhaseWithSpecies s) =
        gems.speciesBeforePhase (gems.indexPhaseWithSpecies s)) ∧
    (gems.speciesBeforePhase gems.numPhases ≤ s →
      gems.indexPhaseWithSpecies s = gems.numPhases) := by
  have h := indexPhaseWithSpeciesLoop_spec gems s hM gems.numPhases 0 (by omega)
    (by simp [Gems.speciesBeforePhase])
  have h0 : gems.speciesBeforePhase 0 = 0 := by simp [Gems.speciesBeforePhase]
  rw [h0] at h
  constructor
  · intro hlt
    obtain ⟨h1, h2, h3⟩ := h.1 hlt
    refine ⟨h1, h2, h3, ?_⟩
    apply offsetOfPhase_eq
    exact lt_of_le_of_lt (speciesBeforePhase_mono gems _ _ (le_of_lt h1)) hM
  · exact h.2

/-- C20 (amended), on phases with 2, 0 and 3 species: species 2 is the first
species of phase 2, and species 5 is beyond the last. -/
theorem gems_indexPhaseWithSpecies_locates_phase_witness :
    (Gems.ofNode threePhaseNode).speciesBeforePhase (Gems.ofNode threePhaseNode).numPhases <
      unsignedModulus ∧
    (Gems.ofNode threePhaseNode).indexPhaseWithSpecies 2 = 2 ∧
    (Gems.ofNode threePhaseNode).speciesBeforePhase
      ((Gems.ofNode threePhaseNode).indexPhaseWithSpecies 2) ≤ 2 ∧
    (Gems.ofNode threePhaseNode).indexPhaseWithSpecies 5 =
      (Gems.ofNode threePhaseNode).numPhases :=
  have hM : (Gems.ofNode threePhaseNode).speciesBeforePhase
      (Gems.ofNode threePhaseNode).numPhases < unsignedModulus := by decide
  have h := gems_indexPhaseWithSpecies_locates_phase (Gems.ofNode threePhaseNode) 2 hM
  have h5 := gems_indexPhaseWithSpecies_locates_phase (Gems.ofNode threePhaseNode) 5 hM
  ⟨hM, by decide, (h.1 (by decide)).2.1, h5.2 (by decide)⟩

/-- Membership in a set after an insertion. -/
theorem StringSet.mem_insert (set : StringSet) (x y : String) :
    y ∈ StringSet.insert set x ↔ y = x ∨ y ∈ set := by
  unfold StringSet.insert
  by_cases h : x ∈ set
  · rw [if_pos h]
    constructor
    · exact Or.inr
    · rintro (rfl | hy)
      · exact h
      · exact hy
  · rw [if_neg h]
    simp [or_comm]

/-- An insertion keeps a set free of repetitions. -/
theorem StringSet.nodup_insert (set : StringSet) (x : String) (h : set.Nodup) :
    (StringSet.insert set x).Nodup := by
  unfold StringSet.insert
  by_cases hx : x ∈ set
  · rw [if_pos hx]
    exact h
  · rw [if_neg hx]
    exact List.Nodup.append h (List.nodup_singleton x) (by simpa using hx)

/-- Reading a map whose first entry has the key. -/
theorem StringSetMap.at_cons_eq (entry : String × StringSet) (rest : StringSetMap)
    (key : String) (h : entry.1 = key) :
    StringSetMap.at (entry :: rest) key = entry.2 := by
  simp [StringSetMap.at, h]

/-- Reading a map whose first entry has another key. -/
theorem StringSetMap.at_cons_ne (entry : String × StringSet) (rest : StringSetMap)
    (key : String) (h : entry.1 ≠ key) :
    StringSetMap.at (entry :: rest) key = StringSetMap.at rest key := by
  have hb : (entry.1 == key) = false := by simpa using h
  simp [StringSetMap.at, List.find?_cons, hb]

/-- Reading a map after `map[key].insert(x)`. -/
theorem StringSetMap.at_insertAt (map : StringSetMap) (key x key' : String) :
    (map.insertAt key x).at key' =
      if key' = key then StringSet.insert (map.at key) x else map.at key' := by
  induction map with
  | nil =>
    by_cases h : key' = key
    · subst h
      simp [StringSetMap.insertAt, StringSetMap.at]
    · have h' : ¬ key = key' := fun e => h e.symm
      simp [StringSetMap.insertAt, StringSetMap.at, h, h']
  | cons entry rest ih =>
    unfold StringSetMap.insertAt
    by_cases he : entry.1 = key
    · rw [if_pos he]
      by_cases h : key' = key
      · subst h
        rw [if_pos rfl, StringSetMap.at_cons_eq (entry.1, StringSet.insert entry.2 x) rest _ he,
          StringSetMap.at_cons_eq entry rest _ he]
      · have h' : ¬ entry.1 = key' := fun e => h (e.symm.trans he)
        rw [if_neg h, StringSetMap.at_cons_ne (entry.1, StringSet.insert entry.2 x) rest _ h',
          StringSetMap.at_cons_ne entry rest _ h']
    · rw [if_neg he]
      by_cases h' : entry.1 = key'
      · have h : ¬ key' = key := fun e => he (h'.trans e)
        rw [if_neg h, StringSetMap.at_cons_eq _ _ _ h', StringSetMap.at_cons_eq _ _ _ h']
      · rw [StringSetMap.at_cons_ne _ _ _ h', ih]
        by_cases h : key' = key
        · rw [if_pos h, if_pos h]
          subst h
          rw [StringSetMap.at_cons_ne _ _ _ h']
        · rw [if_neg h, if_neg h, StringSetMap.at_cons_ne _ _ _ h']

/-- The keys of a map after `map[key].insert(x)`. -/
theorem StringSetMap.mem_keys_insertAt (map : StringSetMap) (key x k : String) :
    k ∈ (map.insertAt key x).map Prod.fst ↔ k = key ∨ k ∈ map.map Prod.fst := by
  induction map with
  | nil => simp [StringSetMap.insertAt]
  | cons entry rest ih =>
    unfold StringSetMap.insertAt
    by_cases he : entry.1 = key
    · rw [if_pos he]
      simp only [List.map_cons, List.mem_cons]
      constructor
      · rintro (h | h)
        · exact Or.inl (h.trans he)
        · exact Or.inr (Or.inr h)
      · rintro (h | h | h)
        · exact Or.inl (h.trans he.symm)
        · exact Or.inl h
        · exact Or.inr h
    · rw [if_neg he]
      simp only [List.map_cons, List.mem_cons, ih]
      tauto

/-- An insertion keeps the keys of a map distinct. -/
theorem StringSetMap.nodup_keys_insertAt (map : StringSetMap) (key x : String)
    (h : (map.map Prod.fst).Nodup) : ((map.insertAt key x).map Prod.fst).Nodup := by
  induction map with
  | nil => simp [StringSetMap.insertAt]
  | cons entry rest ih =>
    unfold StringSetMap.insertAt
    rw [List.map_cons, List.nodup_cons] at h
    by_cases he : entry.1 = key
    · rw [if_pos he]
      rw [List.map_cons, List.nodup_cons]
      exact h
    · rw [if_neg he, List.map_cons, List.nodup_cons]
      refine ⟨?_, ih h.2⟩
      intro hmem
      rcases (StringSetMap.mem_keys_insertAt rest key x entry.1).mp hmem with h1 | h1
      · exact he h1
      · exact h.1 h1

/-- In a map with distinct keys, an entry holds the set read at its key. -/
theorem StringSetMap.at_of_mem (map : StringSetMap) (h : (map.map Prod.fst).Nodup)
    (pair : String × StringSet) (hmem : pair ∈ map) : map.at pair.1 = pair.2 := by
  induction map with
  | nil => simp at hmem
  | cons entry rest ih =>
    rw [List.map_cons, List.nodup_cons] at h
    rcases List.mem_cons.mp hmem with hp | hp
    · rw [hp]
      exact StringSetMap.at_cons_eq entry rest entry.1 rfl
    · have hne : entry.1 ≠ pair.1 := by
        intro e
        apply h.1
        rw [e]
        exact List.mem_map_of_mem Prod.fst hp
      rw [StringSetMap.at_cons_ne entry rest pair.1 hne]
      exact ih h.2 hp

/-- A non-empty set read from a map is the set of one of its entries. -/
theorem StringSetMap.exists_mem_of_mem_at (map : StringSetMap) (key name : String)
    (h : name ∈ map.at key) : ∃ pair, pair ∈ map ∧ pair.1 = key ∧ name ∈ pair.2 := by
  induction map with
  | nil => simp [StringSetMap.at] at h
  | cons entry rest ih =>
    by_cases he : entry.1 = key
    · rw [StringSetMap.at_cons_eq entry rest key he] at h
      exact ⟨entry, List.mem_cons_self _ _, he, h⟩
    · rw [StringSetMap.at_cons_ne entry rest key he] at h
      obtain ⟨pair, hp, hk, hn⟩ := ih h
      exact ⟨pair, List.mem_cons_of_mem _ hp, hk, hn⟩

/-- In a map with distinct keys, a name is in the set of an entry with key
`key` exactly when it is in the set read at `key`. -/
theorem StringSetMap.mem_at_iff (map : StringSetMap) (h : (map.map Prod.fst).Nodup)
    (key name : String) :
    name ∈ map.at key ↔ ∃ pair, pair ∈ map ∧ pair.1 = key ∧ name ∈ pair.2 := by
  constructor
  · exact StringSetMap.exists_mem_of_mem_at map key name
  · rintro ⟨pair, hp, hk, hn⟩
    rw [← hk, StringSetMap.at_of_mem map h pair hp]
    exact hn

/-- The loop that inserts `g 0 .. g (n-1)` into the set at `key`. -/
theorem foldl_insertAt_range (key : String) (g : Nat → String) (map : StringSetMap) (n : Nat) :
    (∀ P name, name ∈ ((List.range n).foldl (fun (m : StringSetMap) j =>
          m.insertAt key (g j)) map).at P ↔
        name ∈ map.at P ∨ (P = key ∧ ∃ j, j < n ∧ g j = name)) ∧
    ((map.map Prod.fst).Nodup →
      (((List.range n).foldl (fun (m : StringSetMap) j =>
          m.insertAt key (g j)) map).map Prod.fst).Nodup) := by
  induction n with
  | zero => simp
  | succ n ih =>
    rw [List.range_succ, List.foldl_append]
    simp only [List.foldl_cons, List.foldl_nil]
    obtain ⟨hmem, hnodup⟩ := ih
    constructor
    · intro P name
      rw [StringSetMap.at_insertAt]
      by_cases hP : P = key
      · subst hP
        rw [if_pos rfl, StringSet.mem_insert, hmem P name]
        constructor
        · rintro (h | h | ⟨_, j, hj, hg⟩)
          · exact Or.inr ⟨rfl, n, Nat.lt_succ_self n, h.symm⟩
          · exact Or.inl h
          · exact Or.inr ⟨rfl, j, Nat.lt_succ_of_lt hj, hg⟩
        · rintro (h | ⟨_, j, hj, hg⟩)
          · exact Or.inr (Or.inl h)
          · rcases Nat.lt_succ_iff_lt_or_eq.mp hj with h | h
            · exact Or.inr (Or.inr ⟨rfl, j, h, hg⟩)
            · rw [h] at hg
              exact Or.inl hg.symm
      · rw [if_neg hP, hmem P name]
        constructor
        · rintro (h | ⟨h, _⟩)
          · exact Or.inl h
          · exact absurd h hP
        · rintro (h | ⟨h, _⟩)
          · exact Or.inl h
          · exact absurd h hP
    · intro h
      exact StringSetMap.nodup_keys_insertAt _ _ _ (hnodup h)

/-- The first loop of `uniqueSpeciesNames` after `p` phases, while the species
counts fit in an `unsigned`: `offset` is the number of species before phase
`p`, the keys are distinct, and the set at a phase name holds the names of the
species of the phases of that name. -/
theorem speciesNamesInPhase_loop (gems : Gems)
    (hM : gems.speciesBeforePhase gems.numPhases < unsignedModulus) (p : Nat)
    (hp : p ≤ gems.numPhases) :
    ((List.range p).foldl
      (fun (acc : StringSetMap × Nat) iphase =>
        let phase_name := gems.phaseName iphase
        let map := (List.range (gems.numSpeciesInPhase iphase)).foldl
          (fun (map : StringSetMap) i =>
            map.insertAt phase_name (originalSpeciesName gems ((acc.2 + i) % unsignedModulus)))
          acc.1
        (map, (acc.2 + gems.numSpeciesInPhase iphase) % unsignedModulus))
      ([], 0)).2 = gems.speciesBeforePhase p ∧
    (((List.range p).foldl
      (fun (acc : StringSetMap × Nat) iphase =>
        let phase_name := gems.phaseName iphase
        let map := (List.range (gems.numSpeciesInPhase iphase)).foldl
          (fun (map : StringSetMap) i =>
            map.insertAt phase_name (originalSpeciesName gems ((acc.2 + i) % unsignedModulus)))
          acc.1
        (map, (acc.2 + gems.numSpeciesInPhase iphase) % unsignedModulus))
      ([], 0)).1.map Prod.fst).Nodup ∧
    ∀ P name, name ∈ ((List.range p).foldl
      (fun (acc : StringSetMap × Nat) iphase =>
        let phase_name := gems.phaseName iphase
        let map := (List.range (gems.numSpeciesInPhase iphase)).foldl
          (fun (map : StringSetMap) i =>
            map.insertAt phase_name (originalSpeciesName gems ((acc.2 + i) % unsignedModulus)))
          acc.1
        (map, (acc.2 + gems.numSpeciesInPhase iphase) % unsignedModulus))
      ([], 0)).1.at P ↔
      ∃ q, q < p ∧ gems.phaseName q = P ∧ gems.occursInPhase q name := by
  induction p with
  | zero =>
    refine ⟨by simp [Gems.speciesBeforePhase], by simp, ?_⟩
    intro P name
    simp [StringSetMap.at]
  | succ p ih =>
    obtain ⟨hoff, hnodup, hmem⟩ := ih (by omega)
    rw [List.range_succ, List.foldl_append]
    simp only [List.foldl_cons, List.foldl_nil]
    generalize hst : List.foldl _ _ (List.range p) = st at hoff hnodup hmem ⊢
    have hnext : gems.speciesBeforePhase p + gems.numSpeciesInPhase p < unsignedModulus := by
      have := speciesBeforePhase_mono gems (p + 1) gems.numPhases hp
      rw [speciesBeforePhase_succ] at this
      omega
    have hloop := foldl_insertAt_range (gems.phaseName p)
      (fun i => originalSpeciesName gems ((st.2 + i) % unsignedModulus)) st.1
      (gems.numSpeciesInPhase p)
    refine ⟨?_, hloop.2 hnodup, ?_⟩
    · rw [hoff, speciesBeforePhase_succ]
      exact Nat.mod_eq_of_lt hnext
    · intro P name
      rw [hloop.1 P name, hmem P name, hoff]
      constructor
      · rintro (⟨q, hq, hP, hocc⟩ | ⟨hP, j, hj, hg⟩)
        · exact ⟨q, Nat.lt_succ_of_lt hq, hP, hocc⟩
        · refine ⟨p, Nat.lt_succ_self p, hP.symm, j, hj, ?_⟩
          rw [Nat.mod_eq_of_lt (by omega)] at hg
          exact hg
      · rintro ⟨q, hq, hP, hocc⟩
        rcases Nat.lt_succ_iff_lt_or_eq.mp hq with h | h
        · exact Or.inl ⟨q, h, hP, hocc⟩
        · subst h
          obtain ⟨j, hj, hg⟩ := hocc
          refine Or.inr ⟨hP.symm, j, hj, ?_⟩
          rw [Nat.mod_eq_of_lt (by omega)]
          exact hg

/-- The test `set.count(x)` of the second loop. -/
theorem StringSet.count_ne_zero_iff (set : StringSet) (x : String) :
    StringSet.count set x ≠ 0 ↔ x ∈ set := by
  unfold StringSet.count
  by_cases h : x ∈ set <;> simp [h]

/-- The inner loop of the second loop of `uniqueSpeciesNames`, over the
entries `pairs` for the species name `species_name`. -/
theorem foldl_found_pairs (species_name : String) (pairs : List (String × StringSet)) :
    ∀ found : StringSetMap,
      (∀ s P, P ∈ (pairs.foldl
          (fun (found : StringSetMap) pair =>
            let phase_name := pair.1
            let species_names_in_this_phase := pair.2
            if StringSet.count species_names_in_this_phase species_name ≠ 0 then
              found.insertAt species_name phase_name
            else found)
          found).at s ↔
        P ∈ found.at s ∨
          (s = species_name ∧ ∃ pair, pair ∈ pairs ∧ pair.1 = P ∧ species_name ∈ pair.2)) ∧
      ((∀ s, (found.at s).Nodup) → ∀ s, ((pairs.foldl
          (fun (found : StringSetMap) pair =>
            let phase_name := pair.1
            let species_names_in_this_phase := pair.2
            if StringSet.count species_names_in_this_phase species_name ≠ 0 then
              found.insertAt species_name phase_name
            else found)
          found).at s).Nodup) := by
  induction pairs with
  | nil =>
    intro found
    simp
  | cons pair rest ih =>
    intro found
    simp only [List.foldl_cons]
    by_cases hc : StringSet.count pair.2 species_name ≠ 0
    · rw [if_pos hc]
      have hin : species_name ∈ pair.2 := (StringSet.count_ne_zero_iff _ _).mp hc
      obtain ⟨hmem, hnodup⟩ := ih (found.insertAt species_name pair.1)
      constructor
      · intro s P
        rw [hmem s P, StringSetMap.at_insertAt]
        by_cases hs : s = species_name
        · subst hs
          rw [if_pos rfl, StringSet.mem_insert]
          constructor
          · rintro ((h | h) | ⟨_, pr, hpr, hk, hn⟩)
            · exact Or.inr ⟨rfl, pair, List.mem_cons_self _ _, h.symm, hin⟩
            · exact Or.inl h
            · exact Or.inr ⟨rfl, pr, List.mem_cons_of_mem _ hpr, hk, hn⟩
          · rintro (h | ⟨_, pr, hpr, hk, hn⟩)
            · exact Or.inl (Or.inr h)
            · rcases List.mem_cons.mp hpr with h | h
              · rw [h] at hk
                exact Or.inl (Or.inl hk.symm)
              · exact Or.inr ⟨rfl, pr, h, hk, hn⟩
        · rw [if_neg hs]
          constructor
          · rintro (h | ⟨h, _⟩)
            · exact Or.inl h
            · exact absurd h hs
          · rintro (h | ⟨h, _⟩)
            · exact Or.inl h
            · exact absurd h hs
      · intro hnd
        apply hnodup
        intro s
        rw [StringSetMap.at_insertAt]
        by_cases hs : s = species_name
        · rw [if_pos hs]
          exact StringSet.nodup_insert _ _ (hnd species_name)
        · rw [if_neg hs]
          exact hnd s
    · rw [if_neg hc]
      have hin : ¬ species_name ∈ pair.2 := fun h => hc ((StringSet.count_ne_zero_iff _ _).mpr h)
      obtain ⟨hmem, hnodup⟩ := ih found
      refine ⟨?_, hnodup⟩
      intro s P
      rw [hmem s P]
      constructor
      · rintro (h | ⟨hs, pr, hpr, hk, hn⟩)
        · exact Or.inl h
        · exact Or.inr ⟨hs, pr, List.mem_cons_of_mem _ hpr, hk, hn⟩
      · rintro (h | ⟨hs, pr, hpr, hk, hn⟩)
        · exact Or.inl h
        · rcases List.mem_cons.mp hpr with h | h
          · rw [h] at hn
            exact absurd hn hin
          · exact Or.inr ⟨hs, pr, h, hk, hn⟩

/-- The second loop of `uniqueSpeciesNames` after the first `k` species: the
set at a species name holds the keys of the entries whose set has the name,
if the name is that of one of these species, and is free of repetitions. -/
theorem speciesFoundInPhases_loop (gems : Gems) (species_names_in_phase : StringSetMap)
    (k : Nat) :
    (∀ s P, P ∈ ((List.range k).foldl
        (fun (found : StringSetMap) i =>
          let species_name := originalSpeciesName gems i
          species_names_in_phase.foldl
            (fun (found : StringSetMap) pair =>
              let phase_name := pair.1
              let species_names_in_this_phase := pair.2
              if StringSet.count species_names_in_this_phase species_name ≠ 0 then
                found.insertAt species_name phase_name
              else found)
            found)
        []).at s ↔
      (∃ i, i < k ∧ originalSpeciesName gems i = s) ∧
        ∃ pair, pair ∈ species_names_in_phase ∧ pair.1 = P ∧ s ∈ pair.2) ∧
    ∀ s, (((List.range k).foldl
        (fun (found : StringSetMap) i =>
          let species_name := originalSpeciesName gems i
          species_names_in_phase.foldl
            (fun (found : StringSetMap) pair =>
              let phase_name := pair.1
              let species_names_in_this_phase := pair.2
              if StringSet.count species_names_in_this_phase species_name ≠ 0 then
                found.insertAt species_name phase_name
              else found)
            found)
        []).at s).Nodup := by
  induction k with
  | zero =>
    constructor
    · intro s P
      simp [StringSetMap.at]
    · intro s
      simp [StringSetMap.at]
  | succ k ih =>
    obtain ⟨hmem, hnodup⟩ := ih
    rw [List.range_succ, List.foldl_append]
    simp only [List.foldl_cons, List.foldl_nil]
    generalize hst : List.foldl _ _ (List.range k) = found at hmem hnodup ⊢
    obtain ⟨hmem', hnodup'⟩ :=
      foldl_found_pairs (originalSpeciesName gems k) species_names_in_phase found
    refine ⟨?_, hnodup' hnodup⟩
    intro s P
    rw [hmem' s P, hmem s P]
    constructor
    · rintro (⟨⟨i, hi, hs⟩, hpair⟩ | ⟨hs, pr, hpr, hk, hn⟩)
      · exact ⟨⟨i, Nat.lt_succ_of_lt hi, hs⟩, hpair⟩
      · exact ⟨⟨k, Nat.lt_succ_self k, hs.symm⟩, pr, hpr, hk, by rw [hs]; exact hn⟩
    · rintro ⟨⟨i, hi, hs⟩, pr, hpr, hk, hn⟩
      rcases Nat.lt_succ_iff_lt_or_eq.mp hi with h | h
      · exact Or.inl ⟨⟨i, h, hs⟩, pr, hpr, hk, hn⟩
      · subst h
        exact Or.inr ⟨hs.symm, pr, hpr, hk, by rw [hs]; exact hn⟩

/-- A list without repetitions has length one exactly when it has exactly one
member. -/
theorem length_eq_one_iff_existsUnique (l : List String) (h : l.Nodup) :
    l.length = 1 ↔ ∃! x, x ∈ l := by
  cases l with
  | nil =>
    constructor
    · intro h0
      simp at h0
    · rintro ⟨x, hx, _⟩
      simp at hx
  | cons a rest =>
    cases rest with
    | nil =>
      constructor
      · intro _
        exact ⟨a, by simp, fun y hy => by simpa using hy⟩
      · intro _
        rfl
    | cons b rest =>
      constructor
      · intro h2
        simp at h2
      · rintro ⟨x, _, hx⟩
        have ha := hx a (by simp)
        have hb := hx b (by simp)
        rw [List.nodup_cons] at h
        exact absurd (by simp [ha, hb]) h.1

/-- The third loop of `uniqueSpeciesNames` pushes one name per species. -/
theorem foldl_push_range (g : Nat → String) (n : Nat) :
    (List.range n).foldl (fun (names : List String) i => names ++ [g i]) [] =
      (List.range n).map g := by
  induction n with
  | zero => rfl
  | succ n ih => rw [List.range_succ, List.foldl_append, ih, List.map_append]; rfl

/-- While the species counts fit in an `unsigned`, `indexPhaseWithSpecies`
returns the phase that holds the species. -/
theorem indexPhaseWithSpecies_eq_of_holds (gems : Gems)
    (hM : gems.speciesBeforePhase gems.numPhases < unsignedModulus) (i p : Nat)
    (hp : p < gems.numPhases) (h1 : gems.speciesBeforePhase p ≤ i)
    (h2 : i < gems.speciesBeforePhase p + gems.numSpeciesInPhase p) :
    gems.indexPhaseWithSpecies i = p := by
  have h := indexPhaseWithSpeciesLoop_spec gems i hM gems.numPhases 0 (by omega)
    (by simp [Gems.speciesBeforePhase])
  have h0 : gems.speciesBeforePhase 0 = 0 := by simp [Gems.speciesBeforePhase]
  rw [h0] at h
  have hlt : i < gems.speciesBeforePhase gems.numPhases := by
    have := speciesBeforePhase_mono gems (p + 1) gems.numPhases hp
    rw [speciesBeforePhase_succ] at this
    omega
  obtain ⟨hr1, hr2, hr3⟩ := h.1 hlt
  change gems.indexPhaseWithSpecies i < gems.numPhases at hr1
  change gems.speciesBeforePhase (gems.indexPhaseWithSpecies i) ≤ i at hr2
  change i < gems.speciesBeforePhase (gems.indexPhaseWithSpecies i) +
    gems.numSpeciesInPhase (gems.indexPhaseWithSpecies i) at hr3
  rcases Nat.lt_trichotomy (gems.indexPhaseWithSpecies i) p with h | h | h
  · have := speciesBeforePhase_mono gems (gems.indexPhaseWithSpecies i + 1) p h
    rw [speciesBeforePhase_succ] at this
    omega
  · exact h
  · have := speciesBeforePhase_mono gems (p + 1) (gems.indexPhaseWithSpecies i) h
    rw [speciesBeforePhase_succ] at this
    omega

/-- While the species counts fit in an `unsigned` and the phase names are
distinct, the set the second loop builds for the name of a species holds the
names of the phases in which the name occurs, without repetitions. -/
theorem speciesFoundInPhases_spec (gems : Gems)
    (hM : gems.speciesBeforePhase gems.numPhases < unsignedModulus) (i : Nat)
    (hi : i < gems.numSpecies) :
    ((speciesFoundInPhases gems (speciesNamesInPhase gems).1).at
        (originalSpeciesName gems i)).Nodup ∧
    ∀ P, P ∈ (speciesFoundInPhases gems (speciesNamesInPhase gems).1).at
        (originalSpeciesName gems i) ↔
      ∃ q, q < gems.numPhases ∧ gems.phaseName q = P ∧
        gems.occursInPhase q (originalSpeciesName gems i) := by
  obtain ⟨_, hkeys, hmap⟩ := speciesNamesInPhase_loop gems hM gems.numPhases (le_refl _)
  obtain ⟨hfound, hnodup⟩ :=
    speciesFoundInPhases_loop gems (speciesNamesInPhase gems).1 gems.numSpecies
  refine ⟨hnodup _, ?_⟩
  intro P
  have h := hfound (originalSpeciesName gems i) P
  unfold speciesFoundInPhases
  rw [h, ← StringSetMap.mem_at_iff (speciesNamesInPhase gems).1 hkeys P]
  unfold speciesNamesInPhase
  rw [hmap P (originalSpeciesName gems i)]
  constructor
  · rintro ⟨_, hq⟩
    exact hq
  · intro hq
    exact ⟨⟨i, hi, rfl⟩, hq⟩

/-- C19 (as stated, refuted): in a system of two phases that are both called
"P" and hold two species each, species 0, "X", is held by phase 0, which has
two species, and its name occurs in both phases; the claim gives it the name
"X(P)", but `uniqueSpeciesNames` leaves it "X". -/
theorem uniqueSpeciesNames_same_phase_names :
    originalSpeciesName (Gems.ofNode sameNamePhasesNode) 0 = "X" ∧
    (Gems.ofNode sameNamePhasesNode).speciesBeforePhase 0 ≤ 0 ∧
    0 < (Gems.ofNode sameNamePhasesNode).speciesBeforePhase 0 +
      (Gems.ofNode sameNamePhasesNode).numSpeciesInPhase 0 ∧
    (Gems.ofNode sameNamePhasesNode).numSpeciesInPhase 0 ≠ 1 ∧
    (Gems.ofNode sameNamePhasesNode).occursInPhase 0 "X" ∧
    (Gems.ofNode sameNamePhasesNode).occursInPhase 1 "X" ∧
    (¬ ∃! q, q < (Gems.ofNode sameNamePhasesNode).numPhases ∧
      (Gems.ofNode sameNamePhasesNode).occursInPhase q "X") ∧
    (uniqueSpeciesNames (Gems.ofNode sameNamePhasesNode))[0]? = some "X" ∧
    (uniqueSpeciesNames (Gems.ofNode sameNamePhasesNode))[0]? ≠
      some ("X" ++ "(" ++ (Gems.ofNode sameNamePhasesNode).phaseName 0 ++ ")") := by
  have h0 : (Gems.ofNode sameNamePhasesNode).occursInPhase 0 "X" :=
    ⟨0, by decide, by decide⟩
  have h1 : (Gems.ofNode sameNamePhasesNode).occursInPhase 1 "X" :=
    ⟨0, by decide, by decide⟩
  refine ⟨by decide, by decide, by decide, by decide, h0, h1, ?_, by decide, by decide⟩
  rintro ⟨q, _, hq⟩
  have e0 := hq 0 ⟨by decide, h0⟩
  have e1 := hq 1 ⟨by decide, h1⟩
  omega

/-- C19 (amended): when the species counts of the phases sum to less than
`2^32` and the phase names are pairwise distinct, `uniqueSpeciesNames` returns
`numSpecies()` names in species-index order, and for every species `i` held
by a phase `p`: the name is the original GEMS name when that name occurs in
exactly one phase or when `p` has a single species, and otherwise it is the
original name followed by "(" + the name of `p` + ")". -/
theorem uniqueSpeciesNames_names_by_phase (gems : Gems)
    (hM : gems.speciesBeforePhase gems.numPhases < unsignedModulus)
    (hdistinct : ∀ p q, p < gems.numPhases → q < gems.numPhases →
      gems.phaseName p = gems.phaseName q → p = q) :
    (uniqueSpeciesNames gems).length = gems.numSpecies ∧
    ∀ i p, i < gems.numSpecies → p < gems.numPhases → gems.speciesBeforePhase p ≤ i →
      i < gems.speciesBeforePhase p + gems.numSpeciesInPhase p →
      (((∃! q, q < gems.numPhases ∧ gems.occursInPhase q (originalSpeciesName gems i)) ∨
          gems.numSpeciesInPhase p = 1) →
        (uniqueSpeciesNames gems)[i]? = some (originalSpeciesName gems i)) ∧
      (¬ ((∃! q, q < gems.numPhases ∧ gems.occursInPhase q (originalSpeciesName gems i)) ∨
          gems.numSpeciesInPhase p = 1) →
        (uniqueSpeciesNames gems)[i]? =
          some (originalSpeciesName gems i ++ "(" ++ gems.phaseName p ++ ")")) := by
  have hnames : uniqueSpeciesNames gems = (List.range gems.numSpecies).map
      (uniqueSpeciesName gems (speciesFoundInPhases gems (speciesNamesInPhase gems).1)) := by
    unfold uniqueSpeciesNames
    exact foldl_push_range _ _
  constructor
  · rw [hnames, List.length_map, List.length_range]
  · intro i p hi hp h1 h2
    have hget : (uniqueSpeciesNames gems)[i]? = some
        (uniqueSpeciesName gems (speciesFoundInPhases gems (speciesNamesInPhase gems).1) i) := by
      rw [hnames, List.getElem?_map, List.getElem?_range hi]
      rfl
    have hidx := indexPhaseWithSpecies_eq_of_holds gems hM i p hp h1 h2
    obtain ⟨hnodup, hfound⟩ := speciesFoundInPhases_spec gems hM i hi
    have hone : ((speciesFoundInPhases gems (speciesNamesInPhase gems).1).at
          (originalSpeciesName gems i)).length = 1 ↔
        ∃! q, q < gems.numPhases ∧ gems.occursInPhase q (originalSpeciesName gems i) := by
      rw [length_eq_one_iff_existsUnique _ hnodup]
      constructor
      · rintro ⟨P, hP, huniq⟩
        obtain ⟨q, hq, hname, hocc⟩ := (hfound P).mp hP
        refine ⟨q, ⟨hq, hocc⟩, ?_⟩
        rintro q' ⟨hq', hocc'⟩
        have hmem : gems.phaseName q' ∈ (speciesFoundInPhases gems
            (speciesNamesInPhase gems).1).at (originalSpeciesName gems i) :=
          (hfound _).mpr ⟨q', hq', rfl, hocc'⟩
        have := huniq _ hmem
        exact hdistinct q' q hq' hq (this.trans hname.symm)
      · rintro ⟨q, ⟨hq, hocc⟩, huniq⟩
        refine ⟨gems.phaseName q, (hfound _).mpr ⟨q, hq, rfl, hocc⟩, ?_⟩
        intro P hP
        obtain ⟨q', hq', hname, hocc'⟩ := (hfound P).mp hP
        rw [← hname, huniq q' ⟨hq', hocc'⟩]
    rw [hget]
    unfold uniqueSpeciesName
    simp only [hidx]
    constructor
    · rintro (h | h)
      · rw [if_pos (hone.mpr h)]
      · by_cases hl : ((speciesFoundInPhases gems (speciesNamesInPhase gems).1).at
            (originalSpeciesName gems i)).length = 1
        · rw [if_pos hl]
        · rw [if_neg hl, if_pos h]
    · intro h
      rw [not_or] at h
      rw [if_neg (fun hl => h.1 (hone.mp hl)), if_neg h.2]

/-- C19 (amended), on two phases "A" and "B" of two species each that share
the species "X": species 0 becomes "X(A)" and species 1 stays "Y". -/
theorem uniqueSpeciesNames_names_by_phase_witness :
    (uniqueSpeciesNames (Gems.ofNode sharedSpeciesNode)).length = 4 ∧
    (uniqueSpeciesNames (Gems.ofNode sharedSpeciesNode))[0]? = some "X(A)" ∧
    (uniqueSpeciesNames (Gems.ofNode sharedSpeciesNode))[1]? = some "Y" :=
  have h := uniqueSpeciesNames_names_by_phase (Gems.ofNode sharedSpeciesNode) (by decide)
    (by
      intro p q hp hq hname
      have hp2 : p < 2 := hp
      have hq2 : q < 2 := hq
      interval_cases p <;> interval_cases q <;>
        first | rfl | exact absurd hname (by decide))
  have h0 : (Gems.ofNode sharedSpeciesNode).occursInPhase 0 "X" := ⟨0, by decide, by decide⟩
  have h1 : (Gems.ofNode sharedSpeciesNode).occursInPhase 1 "X" := ⟨0, by decide, by decide⟩
  have hx := (h.2 0 0 (by decide) (by decide) (by decide) (by decide)).2 (by
    rintro (⟨q, _, hq⟩ | hn)
    · have e0 := hq 0 ⟨by decide, h0⟩
      have e1 := hq 1 ⟨by decide, h1⟩
      omega
    · exact absurd hn (by decide))
  ⟨h.1, hx, by decide⟩

/-! ## Theorems: Partition -/

/-- The check of the setters passes exactly when every index is in range and
in neither of the other two subsets. -/
theorem Partition.admissible_iff (numSpecies : Nat) (indices other1 other2 : List Nat) :
    Partition.admissible numSpecies indices other1 other2 = true ↔
      ∀ i, i ∈ indices → i < numSpecies ∧ i ∉ other1 ∧ i ∉ other2 := by
  simp [Partition.admissible]

/-- The remaining species are the species that are neither kinetic nor inert. -/
theorem Partition.mem_remainingSpecies (numSpecies : Nat) (kinetic inert : List Nat) (i : Nat) :
    i ∈ Partition.remainingSpecies numSpecies kinetic inert ↔
      i < numSpecies ∧ i ∉ kinetic ∧ i ∉ inert := by
  simp [Partition.remainingSpecies]

/-- The partition of a system is consistent. -/
theorem Partition.consistent_ofSystem (system : ChemicalSystem) :
    (Partition.ofSystem system).Consistent := by
  refine ⟨?_, ?_, ?_, ?_⟩
  · intro i hi
    simp [Partition.ofSystem] at hi
  · intro i hi
    simp [Partition.ofSystem] at hi
  · intro i hi
    simp [Partition.ofSystem] at hi
  · simp [Partition.ofSystem, Partition.remainingSpecies]

/-- A setter call that succeeds keeps the partition consistent and keeps its
system. -/
theorem Partition.consistent_applyCall (partition next : Partition) (call : SetterCall)
    (hc : partition.Consistent) (h : partition.applyCall call = Except.ok next) :
    next.Consistent ∧ next.system = partition.system := by
  obtain ⟨hK, hI, hKI, hE⟩ := hc
  cases call with
  | equilibrium indices =>
    simp only [Partition.applyCall, Partition.setEquilibriumSpecies] at h
    split at h
    · cases h
      exact ⟨⟨hK, hI, hKI, rfl⟩, rfl⟩
    · cases h
  | kinetic indices =>
    simp only [Partition.applyCall, Partition.setKineticSpecies] at h
    split at h
    · rename_i hadm
      cases h
      have hall := (Partition.admissible_iff _ _ _ _).mp hadm
      exact ⟨⟨fun i hi => (hall i hi).1, hI, fun i hi => (hall i hi).2.2, rfl⟩, rfl⟩
    · cases h
  | inert indices =>
    simp only [Partition.applyCall, Partition.setInertSpecies] at h
    split at h
    · rename_i hadm
      cases h
      have hall := (Partition.admissible_iff _ _ _ _).mp hadm
      refine ⟨⟨hK, fun i hi => (hall i hi).1, ?_, rfl⟩, rfl⟩
      intro i hi hin
      exact (hall i hin).2.2 hi
    · cases h

/-- A sequence of setter calls that all succeed keeps the partition
consistent and keeps its system. -/
theorem Partition.consistent_applyCalls (calls : List SetterCall) :
    ∀ (partition final : Partition), partition.Consistent →
      partition.applyCalls calls = Except.ok final →
      final.Consistent ∧ final.system = partition.system := by
  induction calls with
  | nil =>
    intro partition final hc h
    simp only [Partition.applyCalls] at h
    cases h
    exact ⟨hc, rfl⟩
  | cons call calls ih =>
    intro partition final hc h
    simp only [Partition.applyCalls] at h
    split at h
    · cases h
    · rename_i next hnext
      obtain ⟨hc', hs'⟩ := Partition.consistent_applyCall partition next call hc hnext
      obtain ⟨hc'', hs''⟩ := ih next final hc' h
      exact ⟨hc'', hs''.trans hs'⟩

/-- C11: after any sequence of `setEquilibriumSpecies`, `setKineticSpecies`
and `setInertSpecies` calls that succeed on the partition of a system with `N`
species, the equilibrium, kinetic and inert index sets are pairwise disjoint
and their union is `{0, ..., N-1}`; and on the partition reached, a call with
an index that is out of range, or that is assigned to another subset, fails
with `InvalidPartition`. -/
theorem partition_setters_keep_invariant (system : ChemicalSystem) (calls : List SetterCall)
    (partition : Partition)
    (h : (Partition.ofSystem system).applyCalls calls = Except.ok partition) :
    (∀ i, i ∈ partition.indicesEquilibriumSpecies → i ∉ partition.indicesKineticSpecies) ∧
    (∀ i, i ∈ partition.indicesEquilibriumSpecies → i ∉ partition.indicesInertSpecies) ∧
    (∀ i, i ∈ partition.indicesKineticSpecies → i ∉ partition.indicesInertSpecies) ∧
    (∀ i, i < system.numSpecies ↔
      i ∈ partition.indicesEquilibriumSpecies ∨ i ∈ partition.indicesKineticSpecies ∨
        i ∈ partition.indicesInertSpecies) ∧
    (∀ indices i, i ∈ indices →
      (system.numSpecies ≤ i ∨ i ∈ partition.indicesKineticSpecies ∨
        i ∈ partition.indicesInertSpecies) →
      partition.setEquilibriumSpecies indices = Except.error Exception.invalidPartition) ∧
    (∀ indices i, i ∈ indices →
      (system.numSpecies ≤ i ∨ i ∈ partition.assignedEquilibriumSpecies ∨
        i ∈ partition.indicesInertSpecies) →
      partition.setKineticSpecies indices = Except.error Exception.invalidPartition) ∧
    (∀ indices i, i ∈ indices →
      (system.numSpecies ≤ i ∨ i ∈ partition.assignedEquilibriumSpecies ∨
        i ∈ partition.indicesKineticSpecies) →
      partition.setInertSpecies indices = Except.error Exception.invalidPartition) := by
  obtain ⟨⟨hK, hI, hKI, hE⟩, hsys⟩ := Partition.consistent_applyCalls calls
    (Partition.ofSystem system) partition (Partition.consistent_ofSystem system) h
  have hsys' : partition.system.numSpecies = system.numSpecies := by
    rw [hsys]
    rfl
  rw [hsys'] at hK hI hE
  have hfail : ∀ (indices other1 other2 : List Nat) (i : Nat), i ∈ indices →
      (system.numSpecies ≤ i ∨ i ∈ other1 ∨ i ∈ other2) →
      ¬ Partition.admissible system.numSpecies indices other1 other2 = true := by
    intro indices other1 other2 i hi hbad hadm
    have := (Partition.admissible_iff _ _ _ _).mp hadm i hi
    rcases hbad with hb | hb | hb
    · omega
    · exact this.2.1 hb
    · exact this.2.2 hb
  refine ⟨?_, ?_, hKI, ?_, ?_, ?_, ?_⟩
  · intro i hi
    rw [hE, Partition.mem_remainingSpecies] at hi
    exact hi.2.1
  · intro i hi
    rw [hE, Partition.mem_remainingSpecies] at hi
    exact hi.2.2
  · intro i
    rw [hE, Partition.mem_remainingSpecies]
    constructor
    · intro hi
      by_cases h1 : i ∈ partition.indicesKineticSpecies
      · exact Or.inr (Or.inl h1)
      · by_cases h2 : i ∈ partition.indicesInertSpecies
        · exact Or.inr (Or.inr h2)
        · exact Or.inl ⟨hi, h1, h2⟩
    · rintro (hi | hi | hi)
      · exact hi.1
      · exact hK i hi
      · exact hI i hi
  · intro indices i hi hbad
    simp only [Partition.setEquilibriumSpecies, hsys']
    rw [if_neg (hfail _ _ _ i hi hbad)]
  · intro indices i hi hbad
    simp only [Partition.setKineticSpecies, hsys']
    rw [if_neg (hfail _ _ _ i hi hbad)]
  · intro indices i hi hbad
    simp only [Partition.setInertSpecies, hsys']
    rw [if_neg (hfail _ _ _ i hi hbad)]

/-- C11, on the example system: making species 1 kinetic succeeds and gives
the example partition, on which making species 1 inert fails. -/
theorem partition_setters_keep_invariant_witness :
    (Partition.ofSystem exampleSystem).applyCalls [SetterCall.kinetic [1]] =
      Except.ok examplePartition ∧
    (∀ i, i < exampleSystem.numSpecies ↔
      i ∈ examplePartition.indicesEquilibriumSpecies ∨
        i ∈ examplePartition.indicesKineticSpecies ∨
        i ∈ examplePartition.indicesInertSpecies) ∧
    examplePartition.setInertSpecies [1] = Except.error Exception.invalidPartition :=
  have h : (Partition.ofSystem exampleSystem).applyCalls [SetterCall.kinetic [1]] =
      Except.ok examplePartition := by
    simp [Partition.applyCalls, Partition.applyCall, Partition.setKineticSpecies,
      Partition.admissible, Partition.remainingSpecies, Partition.ofSystem, exampleSystem,
      examplePartition, List.range_succ]
  have hinv := partition_setters_keep_invariant exampleSystem [SetterCall.kinetic [1]]
    examplePartition h
  ⟨h, hinv.2.2.2.1, hinv.2.2.2.2.2.2 [1] 1 (by simp) (Or.inr (Or.inr (by simp [examplePartition])))⟩

end Reaktoro
